import Mathlib

/-!
Verification development for the RagnarokBackup tool (`ragnarokbackup.py`).

The program snapshots a list of absolute filesystem paths into a staged
archive tree plus three JSON metadata maps (affiliation, permissions, links)
and later restores them in three passes (files/directories, symlinks,
permissions).  This file gives a shallow embedding of the path mapper
(`get_archive_path`), the staging loop of `backup`, the conflict resolver
(`is_same_file` / `handle_conflict`) and the three restore passes of
`restore`, over an explicit model of a POSIX file system.

Modelling conventions:
* An absolute path is its list of components (`FPath`); rendering back to the
  Python `str(Path(...))` form is `pathStr`.  Components of well-formed paths
  are nonempty and contain no `'/'` (`wfComps`).
* The file system is an association list from absolute paths to entries
  (content / directory / raw symlink target, plus mode, uid, gid).  `lookupRaw`
  is `lstat` (no following of the final symlink); `stat` follows chains of
  symlinks at the final component with bounded fuel (a loop, like ELOOP,
  makes `stat` return `none`, so `Path.exists()` is `false` — matching
  CPython, where `os.path.exists` returns `False` on `OSError`).  Symlinks in
  *intermediate* components are not resolved by the model; none of the claims
  proved here exercises that case.  `..` components in link targets are kept
  literally and not interpreted.
* Python dictionaries are association lists updated by `upsert` (replace in
  place, append fresh keys), preserving Python's insertion-order iteration.
* Operations whose Python counterpart raises an exception that the program
  does not catch (e.g. `Path.relative_to` in `get_archive_path`, or
  `mkdir` on a path occupied by a broken symlink) are modelled as returning
  `none` / leaving the state unchanged; each such spot is commented, and the
  theorems exclude those situations by hypothesis.  `os.symlink` failures are
  caught by the program (printed and skipped) and are modelled faithfully as
  no-ops.
-/

abbrev FPath := List String

/-- Components of a well-formed POSIX path: nonempty, no separator inside. -/
def wfComps (p : FPath) : Prop := ∀ c ∈ p, c ≠ "" ∧ '/' ∉ c.data

instance : DecidablePred wfComps := by
  intro p
  unfold wfComps
  infer_instance

/-- `"/".join(comps)` — the separator-joined rendering of path components. -/
def joinComps : List String → String
  | [] => ""
  | [c] => c
  | c :: rest => c ++ "/" ++ joinComps rest

/-- `str(Path(p))` for an absolute path given by its components. -/
def pathStr (p : FPath) : String := "/" ++ joinComps p

/-- `str(rel)` for a relative `Path` built from components: the empty relative
path renders as `"."` (this is what `f"{Path()}"` produces). -/
def relStr (p : FPath) : String := if p = [] then "." else joinComps p

/-- Python `str.startswith`. -/
def startswith (pre s : String) : Bool := List.isPrefixOf pre.data s.data

/-- Python `str.rstrip("/")`. -/
def rstripSlash (s : String) : String :=
  ⟨(s.data.reverse.dropWhile (fun c => c = '/')).reverse⟩

/-- `Path.relative_to`: succeeds exactly when `base` is a component-wise
ancestor (Python raises `ValueError` otherwise, modelled as `none`). -/
def relativeTo (p base : FPath) : Option FPath :=
  if base <+: p then some (p.drop base.length) else none

/-- Splitting a character list on `'/'`, Python `str.split("/")` style
(empty input gives one empty field). -/
def splitSlash : List Char → List (List Char)
  | [] => [[]]
  | c :: rest =>
    let r := splitSlash rest
    if c = '/' then [] :: r
    else (c :: r.headD []) :: r.tail

/-- Parsing a path string into components the way `pathlib` normalises it:
empty fields (duplicate slashes, a leading slash) and `"."` fields are
dropped.  Used to model `Path(string)` and `dest.relative_to(tempdir)`. -/
def parsePath (s : String) : FPath :=
  ((splitSlash s.data).map (fun cs => (⟨cs⟩ : String))).filter
    (fun c => !(c == "" || c == "."))

/-- `Path(target).is_absolute()` on POSIX. -/
def isAbsTarget (t : String) : Bool := startswith "/" t

/-- `get_archive_path(src_path, home)` (ragnarokbackup.py lines 32–52).
Returns `none` where Python's `Path.relative_to` raises `ValueError`
(which would abort the calling backup). -/
def get_archive_path (src home : FPath) : Option (String × String) :=
  let s := pathStr src
  if s = "/root" ∨ startswith "/root/" s = true then
    (relativeTo src ["root"]).map
      (fun rel => ("home_dirs/root/" ++ relStr rel, "home_dirs"))
  else if startswith "/home/" s = true then
    if 2 ≤ src.length then
      match src with
      | _ :: username :: rest =>
        some (rstripSlash ("home_dirs/" ++ username ++ "/" ++ relStr rest), "home_dirs")
      | _ => none
    else
      -- the inner `if len(parts) >= 3` failing falls through to the
      -- "everything else" code at the bottom of the function
      (relativeTo src []).map (fun rel => ("files/" ++ relStr rel, "files"))
  else if startswith (pathStr home) s = true then
    (relativeTo src home).map
      (fun rel => ("home_dirs/" ++ (home.getLastD "") ++ "/" ++ relStr rel, "home_dirs"))
  else
    (relativeTo src []).map (fun rel => ("files/" ++ relStr rel, "files"))

/-! ## The file-system model -/

inductive FNode
  | file (content : List Nat)
  | dir
  | link (target : String)
deriving DecidableEq, Repr

structure FSEntry where
  node : FNode
  mode : Nat := 0
  uid : Nat := 0
  gid : Nat := 0
deriving DecidableEq, Repr

abbrev FS := List (FPath × FSEntry)

/-- Association-list lookup (first binding wins). -/
def alookup {α β : Type} [DecidableEq α] : List (α × β) → α → Option β
  | [], _ => none
  | (k, v) :: rest, a => if a = k then some v else alookup rest a

/-- Python dict update: replace the (first) existing binding of the key in
place, otherwise append the new binding at the end. -/
def upsert {α β : Type} [DecidableEq α] : List (α × β) → α → β → List (α × β)
  | [], k, v => [(k, v)]
  | (k', v') :: rest, k, v =>
    if k' = k then (k, v) :: rest else (k', v') :: upsert rest k v

/-- `os.lstat` view: the binding at the path itself, no symlink following. -/
def lookupRaw (fs : FS) (p : FPath) : Option FSEntry := alookup fs p

/-- Where a symlink stored at `p` with raw text `t` points. -/
def linkDest (p : FPath) (t : String) : FPath :=
  if isAbsTarget t then parsePath t else p.dropLast ++ parsePath t

/-- `os.stat` with bounded symlink-chain following at the final component;
also returns the terminal path (used by `chmod`/`chown` and `open`). -/
def statPath (fs : FS) : Nat → FPath → Option (FPath × FSEntry)
  | 0, _ => none
  | fuel + 1, p =>
    match lookupRaw fs p with
    | none => none
    | some e =>
      match e.node with
      | FNode.link t => statPath fs fuel (linkDest p t)
      | _ => some (p, e)

def stat (fs : FS) (p : FPath) : Option FSEntry := (statPath fs 32 p).map Prod.snd

/-- `Path.exists()` — follows symlinks, `false` for a broken link. -/
def pexists (fs : FS) (p : FPath) : Bool := (stat fs p).isSome

def FSEntry.isFileE (e : FSEntry) : Bool :=
  match e.node with
  | FNode.file _ => true
  | _ => false

def FSEntry.isDirE (e : FSEntry) : Bool :=
  match e.node with
  | FNode.dir => true
  | _ => false

/-- `Path.is_file()` — follows symlinks. -/
def is_file (fs : FS) (p : FPath) : Bool :=
  match stat fs p with
  | some e => e.isFileE
  | none => false

/-- `Path.is_dir()` — follows symlinks. -/
def is_dir (fs : FS) (p : FPath) : Bool :=
  match stat fs p with
  | some e => e.isDirE
  | none => false

/-- `Path.is_symlink()` — looks at the entry itself. -/
def is_symlink (fs : FS) (p : FPath) : Bool :=
  match lookupRaw fs p with
  | some e =>
    match e.node with
    | FNode.link _ => true
    | _ => false
  | none => false

/-- `os.readlink` (only ever called on symlinks by the program). -/
def readlinkRaw (fs : FS) (p : FPath) : String :=
  match lookupRaw fs p with
  | some ⟨FNode.link t, _, _, _⟩ => t
  | _ => ""

/-- Content seen by `open`/`copy` (follows symlinks). -/
def contentAt (fs : FS) (p : FPath) : List Nat :=
  match stat fs p with
  | some ⟨FNode.file c, _, _, _⟩ => c
  | _ => []

/-- `st_mode` of `Path.stat()` (follows symlinks). -/
def modeAt (fs : FS) (p : FPath) : Nat :=
  match stat fs p with
  | some e => e.mode
  | none => 0

/-! ## Mutating file-system operations and the write trace -/

/-- Content-mutating operations performed by restore (directory creation,
file write, symlink creation, unlink, recursive removal).  `chmod`/`chown`
are not content-mutating and are not traced. -/
inductive WEvent
  | wfile (p : FPath)
  | mkdir (p : FPath)
  | mklink (p : FPath)
  | unlink (p : FPath)
  | rmtree (p : FPath)
deriving DecidableEq, Repr

/-- The nonempty ancestors of `p`, shortest first, ending with `p` itself. -/
def nePrefixes (p : FPath) : List FPath :=
  (List.range p.length).map (fun i => p.take (i + 1))

def mkdirStep (acc : FS × List WEvent) (q : FPath) : FS × List WEvent :=
  let (fs, tr) := acc
  if pexists fs q then acc
  -- an existing non-directory would make Python raise FileExistsError in spite
  -- of exist_ok=True; a broken symlink binding likewise; both are modelled as
  -- skips and excluded by hypothesis where they matter
  else if (lookupRaw fs q).isSome then acc
  else (upsert fs q ⟨FNode.dir, 493, 0, 0⟩, tr ++ [WEvent.mkdir q])

/-- `path.mkdir(parents=True, exist_ok=True)`. -/
def mkdirP (fs : FS) (p : FPath) : FS × List WEvent :=
  (nePrefixes p).foldl mkdirStep (fs, [])

/-- Terminal path of the final-component symlink chain, where `open(dst)`
creates or truncates the file. -/
def writeTargetPath (fs : FS) : Nat → FPath → FPath
  | 0, p => p
  | fuel + 1, p =>
    match lookupRaw fs p with
    | some ⟨FNode.link t, _, _, _⟩ => writeTargetPath fs fuel (linkDest p t)
    | _ => p

/-- `shutil.copy2(staged, dst)` on restore: copies content and mode (but not
ownership) through a final symlink at `dst` if there is one. -/
def copyFileTo (stg fs : FS) (k dst : FPath) : FS :=
  upsert fs (writeTargetPath fs 32 dst) ⟨FNode.file (contentAt stg k), modeAt stg k, 0, 0⟩

def unlinkFS (fs : FS) (p : FPath) : FS := fs.filter (fun kv => !(kv.1 == p))

def rmtreeFS (fs : FS) (p : FPath) : FS := fs.filter (fun kv => !(List.isPrefixOf p kv.1))

def parentOk (fs : FS) (p : FPath) : Bool :=
  p.dropLast.isEmpty ||
    (match stat fs p.dropLast with
     | some e => e.isDirE
     | none => false)

/-- `os.symlink(target, dst)`; its `OSError`s (dst occupied, parent missing)
are caught by the restore loop and reported, so they are faithful no-ops. -/
def trySymlink (fs : FS) (dst : FPath) (target : String) : FS × List WEvent :=
  if (lookupRaw fs dst).isSome then (fs, [])
  else if !(parentOk fs dst) then (fs, [])
  else (upsert fs dst ⟨FNode.link target, 511, 0, 0⟩, [WEvent.mklink dst])

/-! ## The archive data model -/

structure Perm where
  mode : Nat
  uid : Nat
  gid : Nat
deriving DecidableEq, Repr

structure LinkInfo where
  target : String
  is_absolute : Bool
  is_dir : Bool := false
deriving DecidableEq, Repr

/-- The staging tree (keyed by archive-relative path) plus the three metadata
maps written to `affiliation.json`, `permissions.json` and `links.json`.
An absent `links.json` is the empty map. -/
structure Archive where
  staging : FS
  affiliation : List (FPath × FPath)
  permissions : List (FPath × Perm)
  links : List (FPath × LinkInfo)
deriving DecidableEq, Repr

def Archive.empty : Archive := ⟨[], [], [], []⟩

/-- mode/uid/gid triple of `src.stat()` (follows symlinks). -/
def statPerm (fs : FS) (p : FPath) : Perm :=
  match stat fs p with
  | some e => ⟨e.mode, e.uid, e.gid⟩
  | none => ⟨0, 0, 0⟩

/-! ## The backup staging loop -/

/-- Names of the direct children of directory `p`, in file-system order. -/
def childNames (fs : FS) (p : FPath) : List String :=
  (fs.filter (fun kv => kv.1.length == p.length + 1 && List.isPrefixOf p kv.1)).map
    (fun kv => kv.1.getLastD "")

/-- `os.walk(src, followlinks=False)`: top-down triples
`(root, dirnames, filenames)`; symlinks to directories appear in `dirnames`
but are not descended into. -/
def walk (fs : FS) : Nat → FPath → List (FPath × List String × List String)
  | 0, _ => []
  | fuel + 1, p =>
    let names := childNames fs p
    let ds := names.filter (fun d => is_dir fs (p ++ [d]))
    let fls := names.filter (fun d => !(is_dir fs (p ++ [d])))
    (p, ds, fls) ::
      (ds.filter (fun d => !(is_symlink fs (p ++ [d])))).flatMap
        (fun d => walk fs fuel (p ++ [d]))

/-- Body of the `for d in dirs:` loop of `backup` (lines 200–235): a symlink
subdirectory re-derives its archive path via `get_archive_path` and records
affiliation + LinkRecord; a plain subdirectory is staged at the inherited
`dest/rel_root/d` and records only a PermissionRecord. -/
def stageWalkDir (fs : FS) (home : FPath) (dry : Bool) (src dest root : FPath)
    (st : Archive) (d : String) : Archive :=
  let dir_path := root ++ [d]
  if is_symlink fs dir_path then
    match get_archive_path dir_path home with
    | none => st  -- relative_to failure would abort the backup; excluded by hypothesis
    | some (sap, _) =>
      let sk := parsePath sap
      let target := readlinkRaw fs dir_path
      let stg :=
        if dry then upsert st.staging sk ⟨FNode.file [], 0, 0, 0⟩
        else upsert st.staging sk ⟨FNode.dir, 493, 0, 0⟩
      { st with
        staging := stg
        affiliation := upsert st.affiliation sk dir_path
        links := upsert st.links sk ⟨target, isAbsTarget target, true⟩ }
  else
    let rel_root := root.drop src.length
    let dest_dir := dest ++ rel_root ++ [d]
    { st with
      staging := upsert st.staging dest_dir ⟨FNode.dir, 493, 0, 0⟩
      permissions := upsert st.permissions dest_dir (statPerm fs dir_path) }

/-- Body of the `for file in files:` loop of `backup` (lines 237–280): both a
symlink and a plain file use the inherited archive path `dest/rel_root/file`;
a symlink records affiliation + LinkRecord (content copied without
dereferencing), a plain file records affiliation + PermissionRecord. -/
def stageWalkFile (fs : FS) (dry : Bool) (src dest root : FPath)
    (st : Archive) (f : String) : Archive :=
  let src_file := root ++ [f]
  let rel_root := root.drop src.length
  let dest_file := dest ++ rel_root ++ [f]
  if is_symlink fs src_file then
    let target := readlinkRaw fs src_file
    let stg :=
      if dry then upsert st.staging dest_file ⟨FNode.file [], 0, 0, 0⟩
      else upsert st.staging dest_file ⟨FNode.link target, 511, 0, 0⟩
    { st with
      staging := stg
      affiliation := upsert st.affiliation dest_file src_file
      links := upsert st.links dest_file ⟨target, isAbsTarget target, false⟩ }
  else
    let stg :=
      if dry then upsert st.staging dest_file ⟨FNode.file [], 0, 0, 0⟩
      else upsert st.staging dest_file
        ⟨FNode.file (contentAt fs src_file), modeAt fs src_file, 0, 0⟩
    { st with
      staging := stg
      affiliation := upsert st.affiliation dest_file src_file
      permissions := upsert st.permissions dest_file (statPerm fs src_file) }

/-- Handling of one requested path (backup, lines 147–282).  A request is the
parsed selection-list line: its absoluteness flag and its components. -/
def processPath (fs : FS) (home : FPath) (dry : Bool) (st : Archive)
    (req : Bool × FPath) : Archive :=
  let (isAbs, src) := req
  if !isAbs then st
  else if !(pexists fs src) then st
  else
    match get_archive_path src home with
    | none => st  -- an uncaught ValueError would abort the backup; excluded by hypothesis
    | some (ap, _) =>
      let dest := parsePath ap
      if is_file fs src then
        let stg :=
          if dry then upsert st.staging dest ⟨FNode.file [], 0, 0, 0⟩
          else upsert st.staging dest
            ⟨FNode.file (contentAt fs src), modeAt fs src, 0, 0⟩
        { st with
          staging := stg
          affiliation := upsert st.affiliation dest src
          permissions := upsert st.permissions dest (statPerm fs src) }
      else if is_symlink fs src then
        let target := readlinkRaw fs src
        let stg :=
          if dry then upsert st.staging dest ⟨FNode.file [], 0, 0, 0⟩
          -- copy2(follow_symlinks=False) reproduces the link itself in staging
          else upsert st.staging dest ⟨FNode.link target, 511, 0, 0⟩
        { st with
          staging := stg
          affiliation := upsert st.affiliation dest src
          links := upsert st.links dest ⟨target, isAbsTarget target, false⟩ }
      else if is_dir fs src then
        (walk fs (fs.length + 1) src).foldl
          (fun st1 rdf =>
            let (root, ds, fls) := rdf
            let st2 := ds.foldl (stageWalkDir fs home dry src dest root) st1
            fls.foldl (stageWalkFile fs dry src dest root) st2)
          st
      else st

/-- The staging phase of `backup` over the whole selection list (metadata
collection and the compression collaborator are out of scope). -/
def backup (fs : FS) (home : FPath) (dry : Bool) (reqs : List (Bool × FPath)) :
    Archive :=
  reqs.foldl (processPath fs home dry) Archive.empty

/-! ## The conflict resolver -/

/-- The restore-side conflict policy: `--conflict overwrite`, `--conflict
skip`, or unset (interactive prompting). -/
inductive Policy
  | overwrite
  | skip
  | ask
deriving DecidableEq, Repr

inductive CResult
  | restore
  | skip
  | overwrite
  | ask
deriving DecidableEq, Repr

/-- `is_same_file(src, dst)` (lines 350–384): both must exist as regular
files, then sizes are compared, then — only on equal sizes — full byte
content (`filecmp.cmp(..., shallow=False)`). -/
def is_same_file (stg fs : FS) (src dst : FPath) : Bool :=
  if !(pexists fs dst) || !(is_file fs dst) then false
  else if !(pexists stg src) || !(is_file stg src) then false
  else if !((contentAt stg src).length == (contentAt fs dst).length) then false
  else contentAt stg src == contentAt fs dst

/-- `handle_conflict(src, dst, dry_run, conflict)` (lines 386–427).  `ans` is
the interactive answer `prompt_overwrite` would collect when policy is unset
and the run is real. -/
def handle_conflict (stg fs : FS) (src dst : FPath) (dry : Bool)
    (conflict : Policy) (ans : Bool) : CResult :=
  if !(pexists fs dst) then CResult.restore
  else if is_same_file stg fs src dst then CResult.skip
  else
    match conflict with
    | Policy.overwrite => CResult.overwrite
    | Policy.skip => CResult.skip
    | Policy.ask =>
      if dry then CResult.ask
      else if ans then CResult.overwrite else CResult.skip

/-! ## The three restore passes -/

/-- Pass 1, one affiliation entry (lines 640–665): missing staged sources are
warned about and skipped; entries with a LinkRecord are deferred to pass 2;
staged regular files go through the conflict resolver; anything else creates
the destination directory when absent. -/
def pass1Step (stg : FS) (links : List (FPath × LinkInfo)) (dry : Bool)
    (conflict : Policy) (prompt : FPath → Bool) (acc : FS × List WEvent)
    (ent : FPath × FPath) : FS × List WEvent :=
  let (k, orig) := ent
  let (fs, tr) := acc
  if !(pexists stg k) then acc
  else if (alookup links k).isSome then acc
  else if is_file stg k then
    match handle_conflict stg fs k orig dry conflict (prompt orig) with
    | CResult.restore =>
      if dry then acc
      else
        let (fs1, tr1) := mkdirP fs orig.dropLast
        (copyFileTo stg fs1 k orig, tr ++ tr1 ++ [WEvent.wfile orig])
    | CResult.overwrite =>
      if dry then acc else (copyFileTo stg fs k orig, tr ++ [WEvent.wfile orig])
    | _ => acc
  else
    if !(pexists fs orig) && !dry then
      let (fs1, tr1) := mkdirP fs orig
      (fs1, tr ++ tr1)
    else acc

def pass1 (A : Archive) (fs : FS) (dry : Bool) (conflict : Policy)
    (prompt : FPath → Bool) : FS × List WEvent :=
  A.affiliation.foldl (pass1Step A.staging A.links dry conflict prompt) (fs, [])

/-- The common tail of the symlink pass: ensure the parent directory, then
`os.symlink` (whose `OSError` is caught and reported). -/
def createLinkAt (fs : FS) (tr : List WEvent) (dst : FPath) (target : String) :
    FS × List WEvent :=
  let (fs1, tr1) := mkdirP fs dst.dropLast
  let (fs2, tr2) := trySymlink fs1 dst target
  (fs2, tr ++ tr1 ++ tr2)

/-- Pass 2, one LinkRecord (lines 670–738). -/
def pass2Step (stg : FS) (aff : List (FPath × FPath)) (dry : Bool)
    (conflict : Policy) (prompt : FPath → Bool) (acc : FS × List WEvent)
    (ent : FPath × LinkInfo) : FS × List WEvent :=
  let (k, info) := ent
  let (fs, tr) := acc
  match alookup aff k with
  | none => acc
  | some dst =>
    let target := info.target
    if pexists fs dst then
      if is_symlink fs dst then
        if readlinkRaw fs dst = target then acc
        else
          match conflict with
          | Policy.overwrite =>
            if dry then acc
            else createLinkAt (unlinkFS fs dst) (tr ++ [WEvent.unlink dst]) dst target
          | Policy.skip => acc
          | Policy.ask =>
            if dry then acc
            else if !(prompt dst) then acc
            else createLinkAt (unlinkFS fs dst) (tr ++ [WEvent.unlink dst]) dst target
      else
        match handle_conflict stg fs k dst dry conflict (prompt dst) with
        | CResult.overwrite =>
          if dry then acc
          else if is_dir fs dst then
            createLinkAt (rmtreeFS fs dst) (tr ++ [WEvent.rmtree dst]) dst target
          else
            createLinkAt (unlinkFS fs dst) (tr ++ [WEvent.unlink dst]) dst target
        | _ => acc
    else
      if dry then acc else createLinkAt fs tr dst target

def pass2 (A : Archive) (fs : FS) (dry : Bool) (conflict : Policy)
    (prompt : FPath → Bool) : FS × List WEvent :=
  A.links.foldl (pass2Step A.staging A.affiliation dry conflict prompt) (fs, [])

/-- `os.chmod` followed by `os.chown` (both follow symlinks; modelled as
succeeding, i.e. a run with sufficient privilege). -/
def applyPerm (fs : FS) (dst : FPath) (pm : Perm) : FS :=
  match statPath fs 32 dst with
  | some (q, e) => upsert fs q ⟨e.node, pm.mode, pm.uid, pm.gid⟩
  | none => fs

/-- Pass 3, one PermissionRecord (lines 751–760): the destination is the
affiliation value when present, otherwise the archive-relative key itself,
which as a relative path is resolved against the current working directory. -/
def pass3Step (aff : List (FPath × FPath)) (cwd : FPath) (fs : FS)
    (ent : FPath × Perm) : FS :=
  let (k, pm) := ent
  let dst :=
    match alookup aff k with
    | some o => o
    | none => cwd ++ k
  if pexists fs dst then applyPerm fs dst pm else fs

def pass3 (A : Archive) (cwd : FPath) (fs : FS) : FS :=
  A.permissions.foldl (pass3Step A.affiliation cwd) fs

/-- The restore engine over one extracted archive (lines 521–765), returning
the final file system and the trace of content-mutating writes.  Metadata
handling (packages, apt repos) involves only external collaborators and is
out of scope. -/
def restore (A : Archive) (fs : FS) (dry : Bool) (conflict : Policy)
    (no_perm : Bool) (prompt : FPath → Bool) (cwd : FPath) : FS × List WEvent :=
  let (fs1, tr1) := pass1 A fs dry conflict prompt
  let (fs2, tr2) := pass2 A fs1 dry conflict prompt
  let fs3 := if !no_perm && !A.permissions.isEmpty then pass3 A cwd fs2 else fs2
  (fs3, tr1 ++ tr2)

/-! ## Concrete scenarios used by counterexamples and witnesses -/

/-- A file system where `/a` is a symlink whose target `/b` is a regular
file. -/
def fsLinkToFile : FS :=
  [(["b"], ⟨FNode.file [104, 105], 420, 1, 2⟩), (["a"], ⟨FNode.link "/b", 511, 0, 0⟩)]

def archLinkToFile : Archive := backup fsLinkToFile ["root"] false [(true, ["a"])]

/-- A file system where `/a` is a symlink whose target `/d` is a directory. -/
def fsSymDir : FS :=
  [(["d"], ⟨FNode.dir, 493, 0, 0⟩), (["a"], ⟨FNode.link "/d", 511, 0, 0⟩)]

/-- An archive as produced from backing up, with a conflicting pair of
requests, a directory symlink `/a -> /c` together with the explicitly listed
path `/a/b` seen through it: `files/a` carries a LinkRecord while `files/a/b`
is a staged regular file whose destination lies below `/a`. -/
def archDeferred : Archive :=
  { staging := [(["files", "a"], ⟨FNode.dir, 493, 0, 0⟩),
                (["files", "a", "b"], ⟨FNode.file [5], 420, 0, 0⟩)]
    affiliation := [(["files", "a"], ["a"]), (["files", "a", "b"], ["a", "b"])]
    permissions := []
    links := [(["files", "a"], ⟨"/c", true, false⟩)] }

/-- A file system whose directory `/home` contains, through the walk of a
backup request for `/home`, a file symlink `/home/alice/ln -> t` and a
directory symlink `/home/alice/dln -> /opt/real`. -/
def fsWalkLinks : FS :=
  [ (["home"], ⟨FNode.dir, 493, 0, 0⟩),
    (["home", "alice"], ⟨FNode.dir, 493, 0, 0⟩),
    (["home", "alice", "t"], ⟨FNode.file [7], 420, 0, 0⟩),
    (["home", "alice", "ln"], ⟨FNode.link "t", 511, 0, 0⟩),
    (["opt"], ⟨FNode.dir, 493, 0, 0⟩),
    (["opt", "real"], ⟨FNode.dir, 493, 0, 0⟩),
    (["home", "alice", "dln"], ⟨FNode.link "/opt/real", 511, 0, 0⟩) ]

def archWalkLinks : Archive := backup fsWalkLinks ["root"] false [(true, ["home"])]

/-! ## C4 — conflict precedence of byte-identical targets -/

/-- C4: when the staged source and the restore destination both exist as
regular files with the same byte content (so equal sizes and equal bytes),
`handle_conflict` returns `skip` for every policy (including `overwrite`),
every dry-run flag and every prompt answer. -/
theorem handle_conflict_identical_skip
    (stg fs : FS) (src dst : FPath) (dry : Bool) (conflict : Policy) (ans : Bool)
    (c : List Nat) (m1 u1 g1 m2 u2 g2 : Nat)
    (hsrc : stat stg src = some ⟨FNode.file c, m1, u1, g1⟩)
    (hdst : stat fs dst = some ⟨FNode.file c, m2, u2, g2⟩) :
    handle_conflict stg fs src dst dry conflict ans = CResult.skip := by
  unfold handle_conflict is_same_file pexists is_file contentAt
  rw [hsrc, hdst]
  simp [FSEntry.isFileE]

/-- Witness for C4: a byte-identical pair under the `overwrite` policy still
resolves to `skip`. -/
theorem handle_conflict_identical_skip_witness :
    stat [(["s"], ⟨FNode.file [1, 2], 420, 0, 0⟩)] ["s"] =
      some ⟨FNode.file [1, 2], 420, 0, 0⟩ ∧
    handle_conflict [(["s"], ⟨FNode.file [1, 2], 420, 0, 0⟩)]
      [(["d"], ⟨FNode.file [1, 2], 384, 5, 6⟩)] ["s"] ["d"] false Policy.overwrite true =
      CResult.skip :=
  ⟨by decide,
   handle_conflict_identical_skip _ _ _ _ _ _ _ [1, 2] 420 0 0 384 5 6
     (by decide) (by decide)⟩

/-! ## C10 — broken top-level symlinks are silently skipped -/

/-- C10: a requested top-level path that is a broken symbolic link (the entry
is a symlink but following it resolves to nothing, so `Path.exists()` — which
follows links — is false) is skipped by the backup loop: the archive state is
returned unchanged, with no affiliation entry, no LinkRecord and no staged
content. -/
theorem backup_broken_symlink_skipped
    (fs : FS) (home : FPath) (dry : Bool) (st : Archive) (p : FPath) (t : String)
    (m u g : Nat)
    (hlink : lookupRaw fs p = some ⟨FNode.link t, m, u, g⟩)
    (hbroken : stat fs p = none) :
    processPath fs home dry st (true, p) = st := by
  simp [processPath, pexists, hbroken]

/-- Witness for C10: backing up the broken symlink `/a -> /nope` produces an
unchanged (empty) archive state. -/
theorem backup_broken_symlink_skipped_witness :
    lookupRaw [(["a"], ⟨FNode.link "/nope", 511, 0, 0⟩)] ["a"] =
      some ⟨FNode.link "/nope", 511, 0, 0⟩ ∧
    stat [(["a"], ⟨FNode.link "/nope", 511, 0, 0⟩)] ["a"] = none ∧
    processPath [(["a"], ⟨FNode.link "/nope", 511, 0, 0⟩)] ["root"] false
      Archive.empty (true, ["a"]) = Archive.empty :=
  ⟨by decide, by decide,
   backup_broken_symlink_skipped _ ["root"] false Archive.empty ["a"] "/nope" 511 0 0
     (by decide) (by decide)⟩

/-! ## C3 — top-level symlinks: LinkRecord only for directory targets -/

/-- C3 counterexample: `/a` is a top-level requested symlink (to the regular
file `/b`), yet backing it up records no LinkRecord at all and does record a
PermissionRecord — because `Path.is_file()` follows symlinks and the
regular-file branch is tested first.  This refutes the claim that every
requested symlink gets a LinkRecord and no PermissionRecord. -/
theorem processPath_symlink_cases_cex :
    is_symlink fsLinkToFile ["a"] = true ∧
    archLinkToFile.links = [] ∧
    archLinkToFile.permissions = [(["files", "a"], ⟨420, 1, 2⟩)] ∧
    archLinkToFile.affiliation = [(["files", "a"], ["a"])] :=
  ⟨rfl, rfl, rfl, rfl⟩

/-- C3 amended: a requested top-level symlink reaches the symlink branch only
when it is not a regular file after following (i.e. its target is a
directory); then staging records affiliation plus a LinkRecord with the raw
unresolved link text and its absolute flag, and no PermissionRecord.  A
symlink whose target is an existing regular file instead takes the
regular-file branch: affiliation plus a PermissionRecord (of the followed
target), and no LinkRecord. -/
theorem processPath_symlink_cases
    (fs : FS) (home : FPath) (st : Archive) (p : FPath) (ap b : String)
    (hmap : get_archive_path p home = some (ap, b))
    (hex : pexists fs p = true)
    (hlink : is_symlink fs p = true) :
    (is_file fs p = false →
      processPath fs home false st (true, p) =
        { st with
          staging := upsert st.staging (parsePath ap)
            ⟨FNode.link (readlinkRaw fs p), 511, 0, 0⟩
          affiliation := upsert st.affiliation (parsePath ap) p
          links := upsert st.links (parsePath ap)
            ⟨readlinkRaw fs p, isAbsTarget (readlinkRaw fs p), false⟩ }) ∧
    (is_file fs p = true →
      processPath fs home false st (true, p) =
        { st with
          staging := upsert st.staging (parsePath ap)
            ⟨FNode.file (contentAt fs p), modeAt fs p, 0, 0⟩
          affiliation := upsert st.affiliation (parsePath ap) p
          permissions := upsert st.permissions (parsePath ap) (statPerm fs p) }) := by
  constructor
  · intro hnf
    simp [processPath, hex, hmap, hnf, hlink]
  · intro hf
    simp [processPath, hex, hmap, hf]

/-- Witness for C3 (amended): the directory-target symlink `/a -> /d` records
affiliation and a LinkRecord, leaving permissions untouched. -/
theorem processPath_symlink_cases_witness :
    pexists fsSymDir ["a"] = true ∧ is_symlink fsSymDir ["a"] = true ∧
    is_file fsSymDir ["a"] = false ∧
    processPath fsSymDir ["root"] false Archive.empty (true, ["a"]) =
      { Archive.empty with
        staging := upsert Archive.empty.staging (parsePath "files/a")
          ⟨FNode.link (readlinkRaw fsSymDir ["a"]), 511, 0, 0⟩
        affiliation := upsert Archive.empty.affiliation (parsePath "files/a") ["a"]
        links := upsert Archive.empty.links (parsePath "files/a")
          ⟨readlinkRaw fsSymDir ["a"], isAbsTarget (readlinkRaw fsSymDir ["a"]), false⟩ } :=
  ⟨by decide, by decide, by decide,
   (processPath_symlink_cases fsSymDir ["root"] Archive.empty ["a"] "files/a" "files"
     (by decide) (by decide) (by decide)).1 (by decide)⟩

/-! ## C5 — the deferred symlink pass -/

/-- C5 counterexample: in the archive `archDeferred`, the path `files/a`
carries a LinkRecord with destination `/a`, yet the file/directory pass run
on an empty file system creates a plain directory at `/a` — as the parent of
the other entry `files/a/b` — so the claim that pass 1 never creates a plain
file or directory at a LinkRecord destination is false. -/
theorem pass1Step_skips_link_entries_cex :
    (alookup archDeferred.links ["files", "a"]).isSome = true ∧
    alookup archDeferred.affiliation ["files", "a"] = some ["a"] ∧
    lookupRaw (pass1 archDeferred [] false Policy.skip (fun _ => false)).1 ["a"] =
      some ⟨FNode.dir, 493, 0, 0⟩ ∧
    (pass1 archDeferred [] false Policy.skip (fun _ => false)).2 =
      [WEvent.mkdir ["a"], WEvent.wfile ["a", "b"]] :=
  ⟨rfl, rfl, rfl, rfl⟩

/-- C5 amended: when the file/directory pass processes an entry that has a
LinkRecord, it performs no write at all for that entry (the entry is skipped
before any filesystem operation, deferring it to the symlink pass); a plain
directory can still appear at such an entry's destination as a parent
directory created for a different entry. -/
theorem pass1Step_skips_link_entries
    (stg : FS) (links : List (FPath × LinkInfo)) (dry : Bool) (conflict : Policy)
    (prompt : FPath → Bool) (acc : FS × List WEvent) (k orig : FPath)
    (h : (alookup links k).isSome = true) :
    pass1Step stg links dry conflict prompt acc (k, orig) = acc := by
  simp only [pass1Step]
  by_cases hst : pexists stg k
  · simp [hst, h]
  · simp [hst]

/-- Witness for C5 (amended): processing the LinkRecord entry `files/a` of
`archDeferred` in pass 1 leaves the state unchanged. -/
theorem pass1Step_skips_link_entries_witness :
    (alookup archDeferred.links ["files", "a"]).isSome = true ∧
    pass1Step archDeferred.staging archDeferred.links false Policy.skip
      (fun _ => false) ([], []) (["files", "a"], ["a"]) = ([], []) :=
  ⟨by decide,
   pass1Step_skips_link_entries archDeferred.staging archDeferred.links false
     Policy.skip (fun _ => false) ([], []) ["files", "a"] ["a"] (by decide)⟩

/-! ## C9 — walked plain subdirectories and the permission-pass fallback -/

/-- C9: a plain (non-symlink) subdirectory discovered during a directory walk
is staged and receives a PermissionRecord while the affiliation (and link)
maps are left unchanged; consequently, when the permission pass later meets a
record whose key has no affiliation entry, it resolves the destination to the
archive-relative key itself appended to the current working directory —
instead of an original absolute location or a skip. -/
theorem walk_subdir_perm_and_cwd_fallback
    (fs : FS) (home : FPath) (dry : Bool) (src dest root : FPath) (st : Archive)
    (d : String) (hnl : is_symlink fs (root ++ [d]) = false)
    (aff : List (FPath × FPath)) (cwd : FPath) (fsr : FS) (k : FPath) (pm : Perm)
    (hmiss : alookup aff k = none) :
    stageWalkDir fs home dry src dest root st d =
      { st with
        staging := upsert st.staging (dest ++ root.drop src.length ++ [d])
          ⟨FNode.dir, 493, 0, 0⟩
        permissions := upsert st.permissions (dest ++ root.drop src.length ++ [d])
          (statPerm fs (root ++ [d])) } ∧
    pass3Step aff cwd fsr (k, pm) =
      (if pexists fsr (cwd ++ k) then applyPerm fsr (cwd ++ k) pm else fsr) := by
  constructor
  · simp [stageWalkDir, hnl, List.append_assoc]
  · simp [pass3Step, hmiss]

/-- Witness for C9: a walked subdirectory of `/home` gets a PermissionRecord
and no affiliation entry, and the permission pass on a key absent from the
affiliation map targets the cwd-relative path. -/
theorem walk_subdir_perm_and_cwd_fallback_witness :
    is_symlink fsWalkLinks ["home", "alice"] = false ∧
    alookup archWalkLinks.affiliation ["files", "home", "alice"] = none ∧
    (alookup archWalkLinks.permissions ["files", "home", "alice"]).isSome = true ∧
    pass3Step archWalkLinks.affiliation ["work"] [] (["files", "home", "alice"], ⟨493, 0, 0⟩) =
      (if pexists ([] : FS) (["work"] ++ ["files", "home", "alice"]) then
        applyPerm [] (["work"] ++ ["files", "home", "alice"]) ⟨493, 0, 0⟩
      else []) :=
  ⟨by decide, by decide, by decide,
   (walk_subdir_perm_and_cwd_fallback fsWalkLinks ["root"] false ["home"]
     ["files", "home"] ["home"] Archive.empty "alice" (by decide)
     archWalkLinks.affiliation ["work"] [] ["files", "home", "alice"] ⟨493, 0, 0⟩
     (by decide)).2⟩

/-! ## C6 — symlinks discovered while walking a directory -/

/-- C6 counterexample: backing up `/home` (whose archive destination is the
inherited `files/home` tree), the walked file symlink `/home/alice/ln -> t`
is recorded under the inherited key `files/home/alice/ln`, not under the
path-mapper result `home_dirs/alice/ln` — so walked symlinks are not all
handled by re-deriving their archive path via `get_archive_path` (only
directory symlinks are: `/home/alice/dln` lands at `home_dirs/alice/dln`). -/
theorem walk_symlink_handling_cex :
    is_symlink fsWalkLinks ["home", "alice", "ln"] = true ∧
    get_archive_path ["home", "alice", "ln"] ["root"] =
      some ("home_dirs/alice/ln", "home_dirs") ∧
    alookup archWalkLinks.links ["files", "home", "alice", "ln"] =
      some ⟨"t", false, false⟩ ∧
    alookup archWalkLinks.links ["home_dirs", "alice", "ln"] = none ∧
    alookup archWalkLinks.affiliation ["files", "home", "alice", "ln"] =
      some ["home", "alice", "ln"] ∧
    alookup archWalkLinks.links ["home_dirs", "alice", "dln"] =
      some ⟨"/opt/real", true, true⟩ :=
  ⟨rfl, rfl, rfl, rfl, rfl, rfl⟩

/-- C6 amended: a *directory* symlink discovered during the walk re-derives
its own archive path by calling the path mapper on its absolute path, while a
*file* symlink discovered during the walk inherits the parent walk's relative
path `dest/rel_root/name`; both record affiliation plus a LinkRecord (the
file case, unlike a requested top-level file-target symlink, does get a
LinkRecord). -/
theorem walk_symlink_handling
    (fs : FS) (home : FPath) (src dest root : FPath) (st : Archive)
    (f d : String) (sap b : String)
    (hf : is_symlink fs (root ++ [f]) = true)
    (hd : is_symlink fs (root ++ [d]) = true)
    (hmap : get_archive_path (root ++ [d]) home = some (sap, b)) :
    stageWalkFile fs false src dest root st f =
      { st with
        staging := upsert st.staging (dest ++ root.drop src.length ++ [f])
          ⟨FNode.link (readlinkRaw fs (root ++ [f])), 511, 0, 0⟩
        affiliation := upsert st.affiliation (dest ++ root.drop src.length ++ [f])
          (root ++ [f])
        links := upsert st.links (dest ++ root.drop src.length ++ [f])
          ⟨readlinkRaw fs (root ++ [f]), isAbsTarget (readlinkRaw fs (root ++ [f])), false⟩ } ∧
    stageWalkDir fs home false src dest root st d =
      { st with
        staging := upsert st.staging (parsePath sap) ⟨FNode.dir, 493, 0, 0⟩
        affiliation := upsert st.affiliation (parsePath sap) (root ++ [d])
        links := upsert st.links (parsePath sap)
          ⟨readlinkRaw fs (root ++ [d]),
           isAbsTarget (readlinkRaw fs (root ++ [d])), true⟩ } := by
  constructor
  · simp [stageWalkFile, hf, List.append_assoc]
  · simp [stageWalkDir, hd, hmap]

/-- Witness for C6 (amended): the walked file symlink `/home/alice/ln` is
staged under the inherited key while the walked directory symlink
`/home/alice/dln` is staged under its re-derived path-mapper key. -/
theorem walk_symlink_handling_witness :
    is_symlink fsWalkLinks ["home", "alice", "ln"] = true ∧
    is_symlink fsWalkLinks ["home", "alice", "dln"] = true ∧
    stageWalkFile fsWalkLinks false ["home"] ["files", "home"] ["home", "alice"]
      Archive.empty "ln" =
      { Archive.empty with
        staging := upsert Archive.empty.staging
          (["files", "home"] ++ (["home", "alice"] : FPath).drop (["home"] : FPath).length ++ ["ln"])
          ⟨FNode.link (readlinkRaw fsWalkLinks (["home", "alice"] ++ ["ln"])), 511, 0, 0⟩
        affiliation := upsert Archive.empty.affiliation
          (["files", "home"] ++ (["home", "alice"] : FPath).drop (["home"] : FPath).length ++ ["ln"])
          (["home", "alice"] ++ ["ln"])
        links := upsert Archive.empty.links
          (["files", "home"] ++ (["home", "alice"] : FPath).drop (["home"] : FPath).length ++ ["ln"])
          ⟨readlinkRaw fsWalkLinks (["home", "alice"] ++ ["ln"]),
           isAbsTarget (readlinkRaw fsWalkLinks (["home", "alice"] ++ ["ln"])), false⟩ } :=
  ⟨by decide, by decide,
   (walk_symlink_handling fsWalkLinks ["root"] ["home"] ["files", "home"]
     ["home", "alice"] Archive.empty "ln" "dln" "home_dirs/alice/dln" "home_dirs"
     (by decide) (by decide) (by decide)).1⟩


/-! ## String-level facts about the path rendering -/

theorem startswith_iff (p s : String) : startswith p s = true ↔ p.data <+: s.data := by
  unfold startswith
  exact List.isPrefixOf_iff_prefix

theorem joinComps_cons₂ (c x : String) (xs : List String) :
    joinComps (c :: x :: xs) = c ++ "/" ++ joinComps (x :: xs) := rfl

theorem str_ne_empty_iff (s : String) : s ≠ "" ↔ s.data ≠ [] := by
  constructor
  · intro h hd
    exact h (String.ext hd)
  · intro h he
    rw [he] at h
    exact h rfl

theorem eq_of_append_slash_pre :
    ∀ (a b t₁ t₂ : List Char), '/' ∉ a → '/' ∉ b →
      (a ++ '/' :: t₁) <+: (b ++ '/' :: t₂) → a = b := by
  intro a
  induction a with
  | nil =>
    intro b t₁ t₂ _ hb h
    cases b with
    | nil => rfl
    | cons x xs =>
      simp only [List.nil_append, List.cons_append, List.cons_prefix_cons] at h
      have : x = '/' := h.1.symm
      exact absurd (this ▸ List.mem_cons_self x xs) hb
  | cons x xs ih =>
    intro b t₁ t₂ ha hb h
    cases b with
    | nil =>
      simp only [List.cons_append, List.nil_append, List.cons_prefix_cons] at h
      exact absurd (h.1 ▸ List.mem_cons_self x xs) ha
    | cons y ys =>
      simp only [List.cons_append, List.cons_prefix_cons] at h
      have hx : x = y := h.1
      have := ih ys t₁ t₂ (fun hm => ha (List.mem_cons_of_mem _ hm))
        (fun hm => hb (List.mem_cons_of_mem _ hm)) h.2
      rw [hx, this]

theorem rstripSlash_eq (s : String) (l : List Char) (c : Char)
    (hd : s.data = l ++ [c]) (hc : c ≠ '/') : rstripSlash s = s := by
  apply String.ext
  show (s.data.reverse.dropWhile (fun x => x = '/')).reverse = s.data
  rw [hd]
  simp [List.dropWhile_cons, hc]

theorem joinComps_last (p : FPath) (hw : wfComps p) (hne : p ≠ []) :
    ∃ l c, (joinComps p).data = l ++ [c] ∧ c ≠ '/' := by
  induction p with
  | nil => exact absurd rfl hne
  | cons x xs ih =>
    cases xs with
    | nil =>
      have hx := hw x (List.mem_cons_self x [])
      have hdne : x.data ≠ [] := (str_ne_empty_iff x).mp hx.1
      obtain h | ⟨L, b, hL⟩ := x.data.eq_nil_or_concat
      · exact absurd h hdne
      · rw [List.concat_eq_append] at hL
        refine ⟨L, b, hL, ?_⟩
        intro hb
        apply hx.2
        rw [hL, hb]
        exact List.mem_append_right _ (List.mem_cons_self _ _)
    | cons y ys =>
      have hwtail : wfComps (y :: ys) := fun c hc => hw c (List.mem_cons_of_mem _ hc)
      obtain ⟨l, c, hl, hc⟩ := ih hwtail (by simp)
      refine ⟨x.data ++ '/' :: l, c, ?_, hc⟩
      rw [joinComps_cons₂]
      rw [String.data_append, String.data_append]
      rw [hl]
      simp

theorem joinComps_head_struct (p : FPath) (c : String) (hw : wfComps p)
    (hc : '/' ∉ c.data) (h : (c.data ++ ['/']) <+: (joinComps p).data) :
    ∃ rest, p = c :: rest ∧ rest ≠ [] := by
  cases p with
  | nil =>
    exfalso
    have := h.length_le
    simp [joinComps] at this
  | cons x xs =>
    cases xs with
    | nil =>
      exfalso
      have hsub := h.subset (List.mem_append_right _ (List.mem_cons_self '/' []))
      have hx := hw x (List.mem_cons_self x [])
      exact hx.2 hsub
    | cons y ys =>
      have hx : '/' ∉ x.data := (hw x (List.mem_cons_self _ _)).2
      have hdata : (joinComps (x :: y :: ys)).data =
          x.data ++ '/' :: (joinComps (y :: ys)).data := by
        rw [joinComps_cons₂, String.data_append, String.data_append]
        simp
      rw [hdata] at h
      have hxc : c = x := by
        apply String.ext
        apply eq_of_append_slash_pre c.data x.data [] ((joinComps (y :: ys)).data) hc hx
        simpa using h
      exact ⟨y :: ys, by rw [hxc], by simp⟩

theorem joinComps_eq_single (p : FPath) (c : String) (hw : wfComps p)
    (hc : '/' ∉ c.data) (hne : c ≠ "") (h : joinComps p = c) : p = [c] := by
  cases p with
  | nil =>
    exfalso
    exact hne (h.symm ▸ rfl)
  | cons x xs =>
    cases xs with
    | nil => rw [show x = c from h]
    | cons y ys =>
      exfalso
      apply hc
      have hdata : (joinComps (x :: y :: ys)).data =
          x.data ++ '/' :: (joinComps (y :: ys)).data := by
        rw [joinComps_cons₂, String.data_append, String.data_append]
        simp
      rw [← h, hdata]
      exact List.mem_append_right _ (List.mem_cons_self _ _)

theorem startswith_append_of (p q r : String) (h : startswith p q = true) :
    startswith p (q ++ r) = true := by
  rw [startswith_iff] at h ⊢
  rw [String.data_append]
  exact h.trans (List.prefix_append _ _)

theorem startswith_self (p : String) : startswith p p = true := by
  rw [startswith_iff]

theorem pathStr_home_data (u : String) (rest : List String) :
    (pathStr ("home" :: u :: rest)).data =
      '/' :: 'h' :: 'o' :: 'm' :: 'e' :: '/' :: (joinComps (u :: rest)).data := by
  unfold pathStr
  rw [joinComps_cons₂, String.data_append, String.data_append, String.data_append]
  rfl

theorem rstrip_home_dirs (u : String) (rest : List String) (hw : wfComps rest) :
    rstripSlash ("home_dirs/" ++ u ++ "/" ++ relStr rest) =
      "home_dirs/" ++ u ++ "/" ++ relStr rest := by
  by_cases hr : rest = []
  · subst hr
    apply rstripSlash_eq _ (("home_dirs/" ++ u ++ "/").data) '.'
    · rw [show ("home_dirs/" ++ u ++ "/" ++ relStr []) =
          (("home_dirs/" ++ u ++ "/") ++ ".") from by simp [relStr, String.append_assoc]]
      rw [String.data_append]
    · decide
  · obtain ⟨l, c, hl, hc⟩ := joinComps_last rest hw hr
    apply rstripSlash_eq _ (("home_dirs/" ++ u ++ "/").data ++ l) c _ hc
    rw [show ("home_dirs/" ++ u ++ "/" ++ relStr rest) =
        (("home_dirs/" ++ u ++ "/") ++ relStr rest) from by rw [String.append_assoc]]
    rw [String.data_append]
    rw [show (relStr rest) = joinComps rest from by simp [relStr, hr]]
    rw [hl]
    simp

theorem get_archive_path_home_branch (home : FPath) (u : String) (rest : List String)
    (hw : wfComps rest) :
    get_archive_path ("home" :: u :: rest) home =
      some ("home_dirs/" ++ u ++ "/" ++ relStr rest, "home_dirs") := by
  have hne : pathStr ("home" :: u :: rest) ≠ "/root" := by
    intro h
    have := congrArg String.data h
    rw [pathStr_home_data] at this
    simp at this
  have hnr : startswith "/root/" (pathStr ("home" :: u :: rest)) = false := by
    rw [Bool.eq_false_iff]
    intro h
    rw [startswith_iff, pathStr_home_data] at h
    rw [show ("/root/" : String).data = ['/','r','o','o','t','/'] from rfl] at h
    rw [List.cons_prefix_cons] at h
    rw [List.cons_prefix_cons] at h
    exact absurd h.2.1 (by decide)
  have hh : startswith "/home/" (pathStr ("home" :: u :: rest)) = true := by
    rw [startswith_iff, pathStr_home_data]
    rw [show ("/home/" : String).data = ['/','h','o','m','e','/'] from rfl]
    show ['/','h','o','m','e','/'] <+: ['/','h','o','m','e','/'] ++ (joinComps (u :: rest)).data
    exact List.prefix_append _ _
  simp only [get_archive_path, hne, hnr, hh]
  simp [rstrip_home_dirs u rest hw]

theorem pathStr_data (p : FPath) : (pathStr p).data = '/' :: (joinComps p).data := by
  unfold pathStr
  rw [String.data_append]
  rfl

/-! ## C8 — the `/home/<segment>` bucket -/

/-- C8 counterexample: the well-formed absolute path `/home/alice` is mapped
to the archive path `"home_dirs/alice/."` — the empty relative remainder is
rendered as `"."` by the f-string, and `rstrip("/")` does not remove it — and
not to `"home_dirs/alice"` as the claim states. -/
theorem get_archive_path_home_cex :
    wfComps ["home", "alice"] ∧
    get_archive_path ["home", "alice"] ["root"] =
      some ("home_dirs/alice/.", "home_dirs") ∧
    "home_dirs/alice/." ≠ "home_dirs/alice" :=
  ⟨by decide, rfl, by decide⟩

/-- C8 amended: for every well-formed absolute path under `/home/<segment>`
(never under `/root`), and any home value, the mapper returns bucket
`home_dirs` and archive path `home_dirs/<segment>/<remaining-relative-path>`
where the *empty* remainder renders as the extra component `"."` (so
`/home/<segment>` itself maps to `home_dirs/<segment>/.`); trailing `/` are
trimmed by `rstrip`, which never changes these rendered paths since they
cannot end in a separator. -/
theorem get_archive_path_home_dirs (home : FPath) (u : String) (rest : List String)
    (hw : wfComps ("home" :: u :: rest)) :
    get_archive_path ("home" :: u :: rest) home =
      some ("home_dirs/" ++ u ++ "/" ++ relStr rest, "home_dirs") :=
  get_archive_path_home_branch home u rest
    (fun c hc => hw c (by simp [hc]))

/-- Witness for C8 (amended): `/home/alice/docs`. -/
theorem get_archive_path_home_dirs_witness :
    wfComps ["home", "alice", "docs"] ∧
    get_archive_path ["home", "alice", "docs"] ["root"] =
      some ("home_dirs/" ++ "alice" ++ "/" ++ relStr ["docs"], "home_dirs") :=
  ⟨by decide, get_archive_path_home_dirs ["root"] "alice" ["docs"] (by decide)⟩

/-! ## C2 — totality of the path mapper -/

/-- C2 counterexample: for the well-formed absolute path `/var/lib/foobar`
and home directory `/var/lib/foo`, `str.startswith` succeeds on the string
prefix but `Path.relative_to` raises `ValueError` (modelled as `none`), so
the mapper does *not* return an archive location and does raise. -/
theorem get_archive_path_total_cex :
    wfComps ["var", "lib", "foobar"] ∧
    get_archive_path ["var", "lib", "foobar"] ["var", "lib", "foo"] = none :=
  ⟨by decide, rfl⟩

/-- C2 amended: for every well-formed absolute path `P` and any home value
such that `str(home)` being a string prefix of `str(P)` implies `home` is a
component-wise ancestor of `P` (the situation the counterexample excludes),
`get_archive_path` returns exactly one archive location, whose first
component is `home_dirs` or `files`, and never raises. -/
theorem get_archive_path_total (src home : FPath) (hw : wfComps src)
    (hhome : startswith (pathStr home) (pathStr src) = true → home <+: src) :
    ∃ a b, get_archive_path src home = some (a, b) ∧
      ((b = "home_dirs" ∧ startswith "home_dirs/" a = true) ∨
       (b = "files" ∧ startswith "files/" a = true)) := by
  by_cases h1a : pathStr src = "/root"
  · have hj : joinComps src = "root" := by
      have hd := congrArg String.data h1a
      rw [pathStr_data] at hd
      rw [show ("/root" : String).data = '/' :: ['r','o','o','t'] from rfl] at hd
      apply String.ext
      have htail : (joinComps src).data = ['r','o','o','t'] := by injection hd
      exact htail
    have hsrc : src = ["root"] :=
      joinComps_eq_single src "root" hw (by decide) (by decide) hj
    subst hsrc
    exact ⟨"home_dirs/root/.", "home_dirs", rfl, Or.inl ⟨rfl, by decide⟩⟩
  · by_cases h1b : startswith "/root/" (pathStr src) = true
    · have hs : ∃ rest, src = "root" :: rest ∧ rest ≠ [] := by
        apply joinComps_head_struct src "root" hw (by decide)
        rw [startswith_iff, pathStr_data] at h1b
        have : ("/root/" : String).data = '/' :: (("root" : String).data ++ ['/']) := rfl
        rw [this, List.cons_prefix_cons] at h1b
        exact h1b.2
      obtain ⟨rest, hsrc, -⟩ := hs
      subst hsrc
      refine ⟨"home_dirs/root/" ++ relStr rest, "home_dirs", ?_,
        Or.inl ⟨rfl, startswith_append_of _ "home_dirs/root/" (relStr rest) (by decide)⟩⟩
      simp only [get_archive_path]
      rw [if_pos (Or.inr h1b)]
      simp [relativeTo]
    · by_cases h2 : startswith "/home/" (pathStr src) = true
      · have hs : ∃ rest, src = "home" :: rest ∧ rest ≠ [] := by
          apply joinComps_head_struct src "home" hw (by decide)
          rw [startswith_iff, pathStr_data] at h2
          have : ("/home/" : String).data = '/' :: (("home" : String).data ++ ['/']) := rfl
          rw [this, List.cons_prefix_cons] at h2
          exact h2.2
        obtain ⟨rest, hsrc, hne⟩ := hs
        cases rest with
        | nil => exact absurd rfl hne
        | cons u rest' =>
          subst hsrc
          refine ⟨"home_dirs/" ++ u ++ "/" ++ relStr rest', "home_dirs",
            get_archive_path_home_branch home u rest'
              (fun c hc => hw c (by simp [hc])),
            Or.inl ⟨rfl, startswith_append_of _ _ (relStr rest')
              (startswith_append_of _ _ "/"
                (startswith_append_of _ _ u (startswith_self "home_dirs/")))⟩⟩
      · by_cases h3 : startswith (pathStr home) (pathStr src) = true
        · have hpre := hhome h3
          refine ⟨"home_dirs/" ++ home.getLastD "" ++ "/" ++ relStr (src.drop home.length),
            "home_dirs", ?_, Or.inl ⟨rfl, startswith_append_of _ _ (relStr (src.drop home.length))
              (startswith_append_of _ _ "/"
                (startswith_append_of _ _ (home.getLastD "") (startswith_self "home_dirs/")))⟩⟩
          simp only [get_archive_path]
          rw [if_neg (by simp [h1a, h1b]), if_neg (by simp [h2]), if_pos h3]
          simp [relativeTo, hpre]
        · refine ⟨"files/" ++ relStr src, "files", ?_,
            Or.inr ⟨rfl, startswith_append_of _ "files/" (relStr src) (by decide)⟩⟩
          simp only [get_archive_path]
          rw [if_neg (by simp [h1a, h1b]), if_neg (by simp [h2]), if_neg (by simp [h3])]
          simp [relativeTo]

/-- Witness for C2 (amended): `/etc/nginx` with home `/root` lands in the
`files` bucket. -/
theorem get_archive_path_total_witness :
    wfComps ["etc", "nginx"] ∧
    (startswith (pathStr ["root"]) (pathStr ["etc", "nginx"]) = true →
      (["root"] : FPath) <+: ["etc", "nginx"]) ∧
    (∃ a b, get_archive_path ["etc", "nginx"] ["root"] = some (a, b) ∧
      ((b = "home_dirs" ∧ startswith "home_dirs/" a = true) ∨
       (b = "files" ∧ startswith "files/" a = true))) :=
  ⟨by decide, by decide,
   get_archive_path_total ["etc", "nginx"] ["root"] (by decide) (by decide)⟩


/-! ## C7 — idempotent restore -/

/-- A left fold whose every step fixes the pair `(fs, tr)` returns it. -/
theorem foldl_pair_id {β : Type} (f : (FS × List WEvent) → β → (FS × List WEvent))
    (l : List β) (fs : FS)
    (h : ∀ tr ent, ent ∈ l → f (fs, tr) ent = (fs, tr)) :
    ∀ tr, l.foldl f (fs, tr) = (fs, tr) := by
  induction l with
  | nil => intro tr; rfl
  | cons e es ih =>
    intro tr
    rw [List.foldl_cons, h tr e (List.mem_cons_self e es)]
    exact ih (fun tr ent hm => h tr ent (List.mem_cons_of_mem e hm)) tr

/-- `mkdir(parents=True, exist_ok=True)` on a path all of whose nonempty
ancestors already exist changes nothing and creates nothing. -/
theorem mkdirP_noop (fs : FS) (p : FPath)
    (h : ∀ q ∈ nePrefixes p, pexists fs q = true) :
    mkdirP fs p = (fs, []) := by
  unfold mkdirP
  exact foldl_pair_id mkdirStep (nePrefixes p) fs
    (fun tr q hq => by simp [mkdirStep, h q hq]) []

/-- One pass-1 entry is a complete no-op when the policy does not force an
overwrite and the entry's destination already exists (regardless of whether
its content matches: an identical file is the identical-skip, a differing one
the policy-driven skip or a declined prompt). -/
theorem pass1Step_noop (stg : FS) (links : List (FPath × LinkInfo))
    (conflict : Policy) (prompt : FPath → Bool) (fs : FS) (tr : List WEvent)
    (k orig : FPath)
    (hpol : conflict = Policy.skip ∨ (conflict = Policy.ask ∧ prompt orig = false))
    (hex : pexists stg k = true → (alookup links k).isSome = false →
      pexists fs orig = true) :
    pass1Step stg links false conflict prompt (fs, tr) (k, orig) = (fs, tr) := by
  simp only [pass1Step]
  by_cases h1 : pexists stg k
  · simp only [h1, Bool.not_true]
    by_cases h2 : (alookup links k).isSome
    · simp [h2]
    · have hdst : pexists fs orig = true := hex h1 (by simp [h2])
      simp only [h2, Bool.not_false, if_false, if_true]
      by_cases h3 : is_file stg k
      · simp only [h3, if_true]
        have hhc : handle_conflict stg fs k orig false conflict (prompt orig) =
            CResult.skip ∨
            handle_conflict stg fs k orig false conflict (prompt orig) =
            CResult.ask := by
          unfold handle_conflict
          rw [hdst]
          by_cases h4 : is_same_file stg fs k orig
          · simp [h4]
          · rcases hpol with hp | ⟨hp, hpr⟩
            · subst hp; simp [h4]
            · subst hp; simp [h4, hpr]
        rcases hhc with hh | hh <;> simp [hh]
      · simp [h3, hdst]
  · simp [h1]

/-- Pass 1 leaves the file system untouched and emits no write when no policy
forces overwrite and every live affiliation destination already exists. -/
theorem pass1_noop (A : Archive) (conflict : Policy) (prompt : FPath → Bool) (fs : FS)
    (hpol : conflict = Policy.skip ∨
      (conflict = Policy.ask ∧ ∀ p, prompt p = false))
    (hex : ∀ ent ∈ A.affiliation, pexists A.staging ent.1 = true →
      (alookup A.links ent.1).isSome = false → pexists fs ent.2 = true) :
    pass1 A fs false conflict prompt = (fs, []) := by
  unfold pass1
  exact foldl_pair_id _ _ fs
    (fun tr ent hm => by
      obtain ⟨k, orig⟩ := ent
      exact pass1Step_noop A.staging A.links conflict prompt fs tr k orig
        (by rcases hpol with hp | ⟨hp, hpr⟩
            · exact Or.inl hp
            · exact Or.inr ⟨hp, hpr orig⟩)
        (hex (k, orig) hm)) []

/-- The symlink-creation tail is a no-op when the destination is already
occupied (`os.symlink` raises `FileExistsError`, which the program catches)
and all parent directories already exist. -/
theorem createLinkAt_noop (fs : FS) (tr : List WEvent) (dst : FPath) (target : String)
    (hpar : ∀ q ∈ nePrefixes dst.dropLast, pexists fs q = true)
    (hocc : (lookupRaw fs dst).isSome = true) :
    createLinkAt fs tr dst target = (fs, tr) := by
  unfold createLinkAt
  rw [mkdirP_noop fs dst.dropLast hpar]
  simp [trySymlink, hocc]

/-- One pass-2 entry is a complete no-op when the policy does not force an
overwrite and the destination binding already exists: an existing symlink
with the identical target is skipped, a differing one is skipped by policy,
and a destination that exists but does not satisfy `Path.exists()` (a broken
symlink) makes the attempted `os.symlink` fail harmlessly. -/
theorem pass2Step_noop (stg : FS) (aff : List (FPath × FPath))
    (conflict : Policy) (prompt : FPath → Bool) (fs : FS) (tr : List WEvent)
    (k : FPath) (info : LinkInfo)
    (hpol : conflict = Policy.skip ∨
      (conflict = Policy.ask ∧ ∀ p, prompt p = false))
    (hex : ∀ dst, alookup aff k = some dst →
      (lookupRaw fs dst).isSome = true ∧
      ∀ q ∈ nePrefixes dst.dropLast, pexists fs q = true) :
    pass2Step stg aff false conflict prompt (fs, tr) (k, info) = (fs, tr) := by
  simp only [pass2Step]
  cases haff : alookup aff k with
  | none => simp
  | some dst =>
    obtain ⟨hocc, hpar⟩ := hex dst haff
    simp only
    by_cases h1 : pexists fs dst
    · simp only [h1, if_true]
      by_cases h2 : is_symlink fs dst
      · simp only [h2, if_true]
        by_cases h3 : readlinkRaw fs dst = info.target
        · simp [h3]
        · rcases hpol with hp | ⟨hp, hpr⟩
          · subst hp; simp [h3]
          · subst hp; simp [h3, hpr dst]
      · simp only [h2, if_false]
        have hnotov : handle_conflict stg fs k dst false conflict (prompt dst) ≠
            CResult.overwrite := by
          unfold handle_conflict
          rw [h1]
          by_cases h4 : is_same_file stg fs k dst
          · simp [h4]
          · rcases hpol with hp | ⟨hp, hpr⟩
            · subst hp; simp [h4]
            · subst hp; simp [h4, hpr dst]
        cases hr : handle_conflict stg fs k dst false conflict (prompt dst) with
        | overwrite => exact absurd hr hnotov
        | restore => simp
        | skip => simp
        | ask => simp
    · simp only [h1, if_false, Bool.false_eq_true, if_false]
      exact createLinkAt_noop fs tr dst info.target hpar hocc

/-- Pass 2 leaves the file system untouched and emits no write when no policy
forces overwrite and every LinkRecord destination is already occupied with
its parents in place. -/
theorem pass2_noop (A : Archive) (conflict : Policy) (prompt : FPath → Bool) (fs : FS)
    (hpol : conflict = Policy.skip ∨
      (conflict = Policy.ask ∧ ∀ p, prompt p = false))
    (hex : ∀ ent ∈ A.links, ∀ dst, alookup A.affiliation ent.1 = some dst →
      (lookupRaw fs dst).isSome = true ∧
      ∀ q ∈ nePrefixes dst.dropLast, pexists fs q = true) :
    pass2 A fs false conflict prompt = (fs, []) := by
  unfold pass2
  exact foldl_pair_id _ _ fs
    (fun tr ent hm => by
      obtain ⟨k, info⟩ := ent
      exact pass2Step_noop A.staging A.affiliation conflict prompt fs tr k info hpol
        (hex (k, info) hm)) []

/-- C7: restoring the same archive a second time, onto the file system `fs1`
produced by a first restore of it, performs zero content-mutating writes when
no policy forces overwrite (policy `skip`, or unset policy with every prompt
declined): the second run's write trace is empty — every regular file
resolves to a skip and every symlink destination is a no-op.  The two
hypotheses say the first run completed normally: every affiliation
destination that pass 1 would act on exists in `fs1`, and every LinkRecord
destination is occupied with its parent directories present — exactly the
state a successful first restore leaves behind (the witness computes one).
The permission pass runs again but performs no content writes. -/
theorem restore_idempotent
    (A : Archive) (init : FS) (conflict : Policy) (no_perm : Bool)
    (prompt : FPath → Bool) (cwd : FPath) (fs1 : FS)
    (hfs1 : fs1 = (restore A init false conflict no_perm prompt cwd).1)
    (hpol : conflict = Policy.skip ∨
      (conflict = Policy.ask ∧ ∀ p, prompt p = false))
    (H1 : ∀ ent ∈ A.affiliation, pexists A.staging ent.1 = true →
      (alookup A.links ent.1).isSome = false → pexists fs1 ent.2 = true)
    (H2 : ∀ ent ∈ A.links, ∀ dst, alookup A.affiliation ent.1 = some dst →
      (lookupRaw fs1 dst).isSome = true ∧
      ∀ q ∈ nePrefixes dst.dropLast, pexists fs1 q = true) :
    (restore A fs1 false conflict no_perm prompt cwd).2 = [] := by
  have h1 := pass1_noop A conflict prompt fs1 hpol H1
  have h2 := pass2_noop A conflict prompt fs1 hpol H2
  simp [restore, h1, h2]

/-- A small archive (one file, one symlink) for the C7 witness. -/
def archIdem : Archive :=
  { staging := [(["files", "x"], ⟨FNode.file [1], 420, 0, 0⟩),
                (["files", "l"], ⟨FNode.link "/x", 511, 0, 0⟩)]
    affiliation := [(["files", "x"], ["x"]), (["files", "l"], ["l"])]
    permissions := [(["files", "x"], ⟨420, 3, 4⟩)]
    links := [(["files", "l"], ⟨"/x", true, false⟩)] }

/-- The file system after the first restore of `archIdem` onto an empty file
system: the file `/x` and the symlink `/l -> /x` (see the witness). -/
def fsIdem : FS := (restore archIdem [] false Policy.skip false (fun _ => false) []).1

/-- Witness for C7: after restoring `archIdem` onto an empty file system, a
second restore performs zero content-mutating writes. -/
theorem restore_idempotent_witness :
    fsIdem = (restore archIdem [] false Policy.skip false (fun _ => false) []).1 ∧
    (∀ ent ∈ archIdem.affiliation, pexists archIdem.staging ent.1 = true →
      (alookup archIdem.links ent.1).isSome = false → pexists fsIdem ent.2 = true) ∧
    (∀ ent ∈ archIdem.links, ∀ dst, alookup archIdem.affiliation ent.1 = some dst →
      (lookupRaw fsIdem dst).isSome = true ∧
      ∀ q ∈ nePrefixes dst.dropLast, pexists fsIdem q = true) ∧
    (restore archIdem fsIdem false Policy.skip false (fun _ => false) []).2 = [] :=
  ⟨rfl, by decide, by decide,
   restore_idempotent archIdem [] Policy.skip false (fun _ => false) [] fsIdem rfl
     (Or.inl rfl) (by decide) (by decide)⟩


/-! ## C1 — round-trip identity: association-list toolkit -/

theorem alookup_append {α β : Type} [DecidableEq α] (m₁ m₂ : List (α × β)) (k : α) :
    alookup (m₁ ++ m₂) k =
      (match alookup m₁ k with
       | some v => some v
       | none => alookup m₂ k) := by
  induction m₁ with
  | nil => simp [alookup]
  | cons kv rest ih =>
    obtain ⟨k', v'⟩ := kv
    by_cases h : k = k'
    · simp [alookup, h]
    · simp [alookup, h, ih]

theorem upsert_of_none {α β : Type} [DecidableEq α] (m : List (α × β)) (k : α) (v : β)
    (h : alookup m k = none) : upsert m k v = m ++ [(k, v)] := by
  induction m with
  | nil => rfl
  | cons kv rest ih =>
    obtain ⟨k', v'⟩ := kv
    simp only [alookup] at h
    by_cases h1 : k = k'
    · simp [h1] at h
    · rw [if_neg h1] at h
      have h2 : ¬(k' = k) := fun he => h1 he.symm
      simp [upsert, h2, ih h]

theorem alookup_upsert {α β : Type} [DecidableEq α] (m : List (α × β)) (k : α) (v : β)
    (a : α) : alookup (upsert m k v) a = if a = k then some v else alookup m a := by
  induction m with
  | nil =>
    by_cases h : a = k <;> simp [upsert, alookup, h]
  | cons kv rest ih =>
    obtain ⟨k', v'⟩ := kv
    by_cases h1 : k' = k
    · subst h1
      by_cases h2 : a = k' <;> simp [upsert, alookup, h2]
    · by_cases h2 : a = k'
      · have : ¬(a = k) := fun he => h1 (h2 ▸ he)
        simp [upsert, alookup, h1, h2, this]
      · simp [upsert, alookup, h1, h2, ih]

theorem alookup_map_self {β : Type} (l : List FPath) (K : FPath → FPath)
    (g : FPath → β) (p : FPath) (hmem : p ∈ l)
    (hinj : ∀ q ∈ l, K q = K p → q = p) :
    alookup (l.map (fun q => (K q, g q))) (K p) = some (g p) := by
  induction l with
  | nil => cases hmem
  | cons a rest ih =>
    by_cases h : K p = K a
    · have : a = p := hinj a (List.mem_cons_self a rest) h.symm
      subst this
      simp [alookup]
    · simp only [List.map_cons, alookup, if_neg h]
      rcases List.mem_cons.mp hmem with he | hm
      · exact absurd (congrArg K he) h
      · exact ih hm (fun q hq => hinj q (List.mem_cons_of_mem a hq))

theorem alookup_map_none {β : Type} (l : List FPath) (K : FPath → FPath)
    (g : FPath → β) (k : FPath) (h : ∀ q ∈ l, K q ≠ k) :
    alookup (l.map (fun q => (K q, g q))) k = none := by
  induction l with
  | nil => rfl
  | cons a rest ih =>
    simp only [List.map_cons, alookup]
    rw [if_neg (fun he => h a (List.mem_cons_self a rest) he.symm)]
    exact ih (fun q hq => h q (List.mem_cons_of_mem a hq))

def FSEntry.isLinkE (e : FSEntry) : Bool :=
  match e.node with
  | FNode.link _ => true
  | _ => false

theorem statPath_succ (fs : FS) (fuel : Nat) (p : FPath) :
    statPath fs (fuel + 1) p =
      (match lookupRaw fs p with
       | none => none
       | some e =>
         match e.node with
         | FNode.link t => statPath fs fuel (linkDest p t)
         | _ => some (p, e)) := rfl

theorem statPath_of_nonlink (fs : FS) (p : FPath) (e : FSEntry)
    (h : lookupRaw fs p = some e) (hn : e.isLinkE = false) :
    statPath fs 32 p = some (p, e) := by
  rw [show (32 : Nat) = 31 + 1 from rfl, statPath_succ, h]
  unfold FSEntry.isLinkE at hn
  cases he : e.node <;> simp_all

theorem statPath_of_none (fs : FS) (p : FPath) (h : lookupRaw fs p = none) :
    statPath fs 32 p = none := by
  rw [show (32 : Nat) = 31 + 1 from rfl, statPath_succ, h]

theorem pexists_of_none (fs : FS) (p : FPath) (h : lookupRaw fs p = none) :
    pexists fs p = false := by
  simp [pexists, stat, statPath_of_none fs p h]

theorem writeTargetPath_of_none (fs : FS) (p : FPath) (h : lookupRaw fs p = none) :
    writeTargetPath fs 32 p = p := by
  rw [show (32 : Nat) = 31 + 1 from rfl]
  unfold writeTargetPath
  rw [h]

/-! ## C1 — file-system operation toolkit -/

/-- The entry every directory created by restore carries (mode `0o755`). -/
def dirE : FSEntry := ⟨FNode.dir, 493, 0, 0⟩

theorem mkdirStep_lookup (fs : FS) (tr : List WEvent) (q a : FPath) :
    lookupRaw ((mkdirStep (fs, tr) q).1) a =
      (if lookupRaw fs q = none ∧ a = q then some dirE else lookupRaw fs a) := by
  unfold mkdirStep
  by_cases h1 : pexists fs q
  · have h2 : ¬(lookupRaw fs q = none) := by
      intro hn
      rw [pexists_of_none fs q hn] at h1
      exact absurd h1 (by decide)
    simp [h1, h2]
  · by_cases h2 : (lookupRaw fs q).isSome
    · have h3 : ¬(lookupRaw fs q = none) := by
        intro hn
        rw [hn] at h2
        exact absurd h2 (by decide)
      simp [h1, h2, h3]
    · have h3 : lookupRaw fs q = none := by
        cases h : lookupRaw fs q
        · rfl
        · rw [h] at h2
          exact absurd rfl h2
      simp only [h1, h2, if_false, Bool.false_eq_true]
      show alookup (upsert fs q dirE) a = _
      rw [alookup_upsert]
      simp only [h3, true_and]
      rfl

theorem mkdirFold_lookup : ∀ (l : List FPath) (fs : FS) (tr : List WEvent) (a : FPath),
    (lookupRaw ((l.foldl mkdirStep (fs, tr)).1) a = lookupRaw fs a ∨
     lookupRaw ((l.foldl mkdirStep (fs, tr)).1) a = some dirE) ∧
    (a ∈ l → lookupRaw fs a = none →
      lookupRaw ((l.foldl mkdirStep (fs, tr)).1) a = some dirE) ∧
    (a ∉ l → lookupRaw ((l.foldl mkdirStep (fs, tr)).1) a = lookupRaw fs a) ∧
    (∀ e, lookupRaw fs a = some e →
      lookupRaw ((l.foldl mkdirStep (fs, tr)).1) a = some e) := by
  intro l
  induction l with
  | nil => exact fun fs tr a => ⟨Or.inl rfl, fun h => absurd h (List.not_mem_nil a),
      fun _ => rfl, fun e he => he⟩
  | cons q rest ih =>
    intro fs tr a
    rw [List.foldl_cons]
    have hl := mkdirStep_lookup fs tr q a
    have ihx := ih ((mkdirStep (fs, tr) q).1) ((mkdirStep (fs, tr) q).2) a
    have heta : List.foldl mkdirStep (mkdirStep (fs, tr) q) rest =
        List.foldl mkdirStep ((mkdirStep (fs, tr) q).1, (mkdirStep (fs, tr) q).2) rest := rfl
    rw [heta]
    by_cases hc : lookupRaw fs q = none ∧ a = q
    · rw [if_pos hc] at hl
      have hfin : lookupRaw ((List.foldl mkdirStep ((mkdirStep (fs, tr) q).1,
          (mkdirStep (fs, tr) q).2) rest).1) a = some dirE := ihx.2.2.2 dirE hl
      refine ⟨Or.inr hfin, fun _ _ => hfin, ?_, ?_⟩
      · intro hnm
        exact absurd (hc.2 ▸ List.mem_cons_self q rest) hnm
      · intro e he
        rw [hc.2] at he
        rw [hc.1] at he
        cases he
    · rw [if_neg hc] at hl
      refine ⟨?_, ?_, ?_, ?_⟩
      · rcases ihx.1 with h | h
        · rw [h, hl]
          exact Or.inl rfl
        · exact Or.inr h
      · intro hmem hnone
        rcases List.mem_cons.mp hmem with he | hm
        · exfalso
          exact hc ⟨he ▸ hnone, he⟩
        · exact ihx.2.1 hm (hl.trans hnone)
      · intro hnm
        have ha : a ∉ rest := fun hm => hnm (List.mem_cons_of_mem q hm)
        rw [ihx.2.2.1 ha, hl]
      · intro e he
        exact ihx.2.2.2 e (hl.trans he)

theorem mem_nePrefixes (q p : FPath) : q ∈ nePrefixes p ↔ q ≠ [] ∧ q <+: p := by
  unfold nePrefixes
  constructor
  · intro h
    obtain ⟨i, hi, hq⟩ := List.mem_map.mp h
    have hil : i < p.length := List.mem_range.mp hi
    subst hq
    constructor
    · intro hnil
      have := congrArg List.length hnil
      simp [Nat.min_eq_left (Nat.succ_le_of_lt hil)] at this
    · exact List.take_prefix _ _
  · intro ⟨hne, hpre⟩
    apply List.mem_map.mpr
    refine ⟨q.length - 1, List.mem_range.mpr ?_, ?_⟩
    · have h1 : 0 < q.length := List.length_pos.mpr hne
      have h2 : q.length ≤ p.length := hpre.length_le
      omega
    · have h1 : 0 < q.length := List.length_pos.mpr hne
      have : q.length - 1 + 1 = q.length := by omega
      rw [this]
      have := List.prefix_iff_eq_take.mp hpre
      exact this.symm

theorem mkdirP_lookup_or (fs : FS) (t : FPath) (a : FPath) :
    lookupRaw ((mkdirP fs t).1) a = lookupRaw fs a ∨
    lookupRaw ((mkdirP fs t).1) a = some dirE :=
  (mkdirFold_lookup (nePrefixes t) fs [] a).1

theorem mkdirP_mono (fs : FS) (t : FPath) (a : FPath) (e : FSEntry)
    (h : lookupRaw fs a = some e) : lookupRaw ((mkdirP fs t).1) a = some e :=
  (mkdirFold_lookup (nePrefixes t) fs [] a).2.2.2 e h

theorem mkdirP_frame (fs : FS) (t : FPath) (a : FPath) (h : ¬(a ≠ [] ∧ a <+: t)) :
    lookupRaw ((mkdirP fs t).1) a = lookupRaw fs a :=
  (mkdirFold_lookup (nePrefixes t) fs [] a).2.2.1
    (fun hm => h ((mem_nePrefixes a t).mp hm))

theorem mkdirP_creates (fs : FS) (t : FPath) (a : FPath) (hmem : a ∈ nePrefixes t)
    (h : lookupRaw fs a = none) : lookupRaw ((mkdirP fs t).1) a = some dirE :=
  (mkdirFold_lookup (nePrefixes t) fs [] a).2.1 hmem h

theorem mkdirP_post (fs : FS) (t : FPath)
    (h : ∀ q ∈ nePrefixes t, lookupRaw fs q = none ∨ lookupRaw fs q = some dirE) :
    ∀ q ∈ nePrefixes t, lookupRaw ((mkdirP fs t).1) q = some dirE := by
  intro q hq
  rcases h q hq with hn | hd
  · exact mkdirP_creates fs t q hq hn
  · exact mkdirP_mono fs t q dirE hd

def keyOf (home p : FPath) : FPath := parsePath ((get_archive_path p home).getD ("", "")).1

def isFileReq (fs0 : FS) (p : FPath) : Bool :=
  match lookupRaw fs0 p with
  | some e => e.isFileE
  | none => false

def topEntry (fs0 : FS) (p : FPath) : FSEntry :=
  match lookupRaw fs0 p with
  | some ⟨FNode.file c, m, _, _⟩ => ⟨FNode.file c, m, 0, 0⟩
  | some ⟨FNode.link t, _, _, _⟩ => ⟨FNode.link t, 511, 0, 0⟩
  | _ => dirE

def linkInfoOf (fs0 : FS) (p : FPath) : LinkInfo :=
  ⟨readlinkRaw fs0 p, isAbsTarget (readlinkRaw fs0 p), false⟩

theorem processPath_file_char (fs0 : FS) (home : FPath) (st : Archive) (p : FPath)
    (c : List Nat) (m u g : Nat) (ap b : String)
    (hb : lookupRaw fs0 p = some ⟨FNode.file c, m, u, g⟩)
    (hmap : get_archive_path p home = some (ap, b)) :
    processPath fs0 home false st (true, p) =
      { st with
        staging := upsert st.staging (parsePath ap) ⟨FNode.file c, m, 0, 0⟩
        affiliation := upsert st.affiliation (parsePath ap) p
        permissions := upsert st.permissions (parsePath ap) ⟨m, u, g⟩ } := by
  have hstat : stat fs0 p = some ⟨FNode.file c, m, u, g⟩ := by
    unfold stat
    rw [statPath_of_nonlink fs0 p _ hb rfl]
    rfl
  simp [processPath, pexists, hstat, hmap, is_file, contentAt, modeAt, statPerm,
    FSEntry.isFileE]

theorem processPath_dirlink_char (fs0 : FS) (home : FPath) (st : Archive) (p : FPath)
    (t : String) (m u g : Nat) (ap b : String)
    (hb : lookupRaw fs0 p = some ⟨FNode.link t, m, u, g⟩)
    (hdir : is_dir fs0 p = true)
    (hmap : get_archive_path p home = some (ap, b)) :
    processPath fs0 home false st (true, p) =
      { st with
        staging := upsert st.staging (parsePath ap) ⟨FNode.link t, 511, 0, 0⟩
        affiliation := upsert st.affiliation (parsePath ap) p
        links := upsert st.links (parsePath ap) ⟨t, isAbsTarget t, false⟩ } := by
  have hex : pexists fs0 p = true := by
    unfold is_dir at hdir
    unfold pexists
    cases h : stat fs0 p
    · rw [h] at hdir
      exact absurd hdir (by decide)
    · rfl
  have hnf : is_file fs0 p = false := by
    unfold is_file
    cases h : stat fs0 p with
    | none => rfl
    | some e =>
      obtain ⟨n, em, eu, eg⟩ := e
      unfold is_dir at hdir
      rw [h] at hdir
      cases n with
      | file c => exact absurd hdir (by simp [FSEntry.isDirE])
      | dir => simp [FSEntry.isFileE]
      | link t => exact absurd hdir (by simp [FSEntry.isDirE])
  have hsym : is_symlink fs0 p = true := by
    simp [is_symlink, hb]
  have hrl : readlinkRaw fs0 p = t := by
    simp [readlinkRaw, hb]
  simp [processPath, hex, hmap, hnf, hsym, hrl]

/-- Characterization of the staging loop on a selection of plain regular
files and directory-target symlinks: the archive is exactly the four maps in
request order (files contribute permission records, symlinks contribute link
records, both contribute staging and affiliation). -/
theorem backup_char (fs0 : FS) (home : FPath) :
    ∀ (reqs : List FPath) (st : Archive),
    (∀ p ∈ reqs, isFileReq fs0 p = true ∨
      (is_symlink fs0 p = true ∧ is_dir fs0 p = true)) →
    (∀ p ∈ reqs, (get_archive_path p home).isSome = true) →
    (∀ p ∈ reqs, ∀ q ∈ reqs, keyOf home p = keyOf home q → p = q) →
    reqs.Nodup →
    (∀ p ∈ reqs, alookup st.staging (keyOf home p) = none ∧
      alookup st.affiliation (keyOf home p) = none ∧
      alookup st.permissions (keyOf home p) = none ∧
      alookup st.links (keyOf home p) = none) →
    (reqs.map (fun p => (true, p))).foldl (processPath fs0 home false) st =
      { staging := st.staging ++ reqs.map (fun p => (keyOf home p, topEntry fs0 p))
        affiliation := st.affiliation ++ reqs.map (fun p => (keyOf home p, p))
        permissions := st.permissions ++
          (reqs.filter (fun p => isFileReq fs0 p)).map
            (fun p => (keyOf home p, statPerm fs0 p))
        links := st.links ++
          (reqs.filter (fun p => !(isFileReq fs0 p))).map
            (fun p => (keyOf home p, linkInfoOf fs0 p)) } := by
  intro reqs
  induction reqs with
  | nil =>
    intro st _ _ _ _ _
    cases st
    simp
  | cons p rest ih =>
    intro st hkind hmap hinj hnd hfresh
    obtain ⟨⟨ap, b⟩, hm⟩ := Option.isSome_iff_exists.mp (hmap p (List.mem_cons_self p rest))
    have hkey : keyOf home p = parsePath ap := by
      simp [keyOf, hm]
    have hfr := hfresh p (List.mem_cons_self p rest)
    have hne_tail : ∀ q ∈ rest, ¬(keyOf home q = keyOf home p) := by
      intro q hq he
      have := hinj q (List.mem_cons_of_mem p hq) p (List.mem_cons_self p rest) he
      rw [this] at hq
      exact (List.nodup_cons.mp hnd).1 hq
    have htail_args : (∀ q ∈ rest, isFileReq fs0 q = true ∨
        (is_symlink fs0 q = true ∧ is_dir fs0 q = true)) ∧
        (∀ q ∈ rest, (get_archive_path q home).isSome = true) ∧
        (∀ q ∈ rest, ∀ r ∈ rest, keyOf home q = keyOf home r → q = r) ∧
        rest.Nodup := by
      refine ⟨fun q hq => hkind q (List.mem_cons_of_mem p hq),
        fun q hq => hmap q (List.mem_cons_of_mem p hq),
        fun q hq r hr he => hinj q (List.mem_cons_of_mem p hq) r (List.mem_cons_of_mem p hr) he,
        (List.nodup_cons.mp hnd).2⟩
    rcases hkind p (List.mem_cons_self p rest) with hf | ⟨hsym, hdir⟩
    · -- regular-file request
      obtain ⟨e, hb⟩ : ∃ e, lookupRaw fs0 p = some e := by
        unfold isFileReq at hf
        cases h : lookupRaw fs0 p
        · rw [h] at hf
          exact absurd hf (by decide)
        · exact ⟨_, rfl⟩
      obtain ⟨n, em, eu, eg⟩ := e
      obtain ⟨c, hc⟩ : ∃ c, n = FNode.file c := by
        unfold isFileReq at hf
        rw [hb] at hf
        cases n with
        | file c => exact ⟨c, rfl⟩
        | dir => exact absurd hf (by simp [FSEntry.isFileE])
        | link t => exact absurd hf (by simp [FSEntry.isFileE])
      subst hc
      have hperm : statPerm fs0 p = ⟨em, eu, eg⟩ := by
        unfold statPerm stat
        rw [statPath_of_nonlink fs0 p _ hb rfl]
        rfl
      have htop : topEntry fs0 p = ⟨FNode.file c, em, 0, 0⟩ := by
        simp [topEntry, hb]
      rw [List.map_cons, List.foldl_cons,
        processPath_file_char fs0 home st p c em eu eg ap b hb hm, ← hkey]
      rw [upsert_of_none _ _ _ hfr.1, upsert_of_none _ _ _ hfr.2.1,
        upsert_of_none _ _ _ hfr.2.2.1]
      rw [ih _ htail_args.1 htail_args.2.1 htail_args.2.2.1 htail_args.2.2.2 ?fresh]
      case fresh =>
        intro q hq
        have hne := hne_tail q hq
        have hfq := hfresh q (List.mem_cons_of_mem p hq)
        refine ⟨?_, ?_, ?_, hfq.2.2.2⟩ <;>
          rw [alookup_append] <;>
          simp [alookup, hne, hfq.1, hfq.2.1, hfq.2.2.1]
      have hfil1 : (p :: rest).filter (fun q => isFileReq fs0 q) =
          p :: rest.filter (fun q => isFileReq fs0 q) := by
        simp [List.filter_cons, hf]
      have hfil2 : (p :: rest).filter (fun q => !(isFileReq fs0 q)) =
          rest.filter (fun q => !(isFileReq fs0 q)) := by
        simp [List.filter_cons, hf]
      simp [hfil1, hfil2, htop, hperm]
    · -- directory-symlink request
      obtain ⟨t, em, eu, eg, hb⟩ : ∃ t em eu eg,
          lookupRaw fs0 p = some ⟨FNode.link t, em, eu, eg⟩ := by
        unfold is_symlink at hsym
        cases h : lookupRaw fs0 p with
        | none =>
          rw [h] at hsym
          exact absurd hsym (by decide)
        | some e =>
          obtain ⟨n, em, eu, eg⟩ := e
          rw [h] at hsym
          cases n with
          | file c => exact absurd hsym (by simp)
          | dir => exact absurd hsym (by simp)
          | link t => exact ⟨t, em, eu, eg, rfl⟩
      have hnotfile : isFileReq fs0 p = false := by
        simp [isFileReq, hb, FSEntry.isFileE]
      have htop : topEntry fs0 p = ⟨FNode.link t, 511, 0, 0⟩ := by
        simp [topEntry, hb]
      have hli : linkInfoOf fs0 p = ⟨t, isAbsTarget t, false⟩ := by
        simp [linkInfoOf, readlinkRaw, hb]
      rw [List.map_cons, List.foldl_cons,
        processPath_dirlink_char fs0 home st p t em eu eg ap b hb hdir hm, ← hkey]
      rw [upsert_of_none _ _ _ hfr.1, upsert_of_none _ _ _ hfr.2.1,
        upsert_of_none _ _ _ hfr.2.2.2]
      rw [ih _ htail_args.1 htail_args.2.1 htail_args.2.2.1 htail_args.2.2.2 ?fresh2]
      case fresh2 =>
        intro q hq
        have hne := hne_tail q hq
        have hfq := hfresh q (List.mem_cons_of_mem p hq)
        refine ⟨?_, ?_, hfq.2.2.1, ?_⟩ <;>
          rw [alookup_append] <;>
          simp [alookup, hne, hfq.1, hfq.2.1, hfq.2.2.2]
      have hfil1 : (p :: rest).filter (fun q => isFileReq fs0 q) =
          rest.filter (fun q => isFileReq fs0 q) := by
        simp [List.filter_cons, hnotfile]
      have hfil2 : (p :: rest).filter (fun q => !(isFileReq fs0 q)) =
          p :: rest.filter (fun q => !(isFileReq fs0 q)) := by
        simp [List.filter_cons, hnotfile]
      simp [hfil1, hfil2, htop, hli]

theorem not_self_pre_dropLast (p : FPath) : ¬(p ≠ [] ∧ p <+: p.dropLast) := by
  intro ⟨hne, hpre⟩
  have h1 := hpre.length_le
  rw [List.length_dropLast] at h1
  have h2 : 0 < p.length := List.length_pos.mpr hne
  omega

theorem pre_of_pre_dropLast {q p : FPath} (h : q <+: p.dropLast) : q <+: p :=
  h.trans (List.dropLast_prefix p)

/-- The staging / links / affiliation / permission maps of the characterized
archive, looked up at a request's key. -/
theorem alookup_req_map {β : Type} (home : FPath) (reqs : List FPath)
    (g : FPath → β) (p : FPath) (hmem : p ∈ reqs)
    (hinj : ∀ q ∈ reqs, ∀ r ∈ reqs, keyOf home q = keyOf home r → q = r) :
    alookup (reqs.map (fun q => (keyOf home q, g q))) (keyOf home p) = some (g p) :=
  alookup_map_self reqs (keyOf home) g p hmem
    (fun q hq he => hinj q hq p hmem he)

theorem alookup_filter_map_none {β : Type} (home : FPath) (reqs : List FPath)
    (pred : FPath → Bool) (g : FPath → β) (p : FPath) (hmem : p ∈ reqs)
    (hinj : ∀ q ∈ reqs, ∀ r ∈ reqs, keyOf home q = keyOf home r → q = r)
    (hp : pred p = false) :
    alookup ((reqs.filter pred).map (fun q => (keyOf home q, g q)))
      (keyOf home p) = none := by
  apply alookup_map_none
  intro q hq he
  have hq' := List.mem_filter.mp hq
  have : q = p := hinj q hq'.1 p hmem he
  rw [this] at hq'
  rw [hp] at hq'
  exact absurd hq'.2 (by decide)

theorem alookup_filter_map_self {β : Type} (home : FPath) (reqs : List FPath)
    (pred : FPath → Bool) (g : FPath → β) (p : FPath) (hmem : p ∈ reqs)
    (hinj : ∀ q ∈ reqs, ∀ r ∈ reqs, keyOf home q = keyOf home r → q = r)
    (hp : pred p = true) :
    alookup ((reqs.filter pred).map (fun q => (keyOf home q, g q)))
      (keyOf home p) = some (g p) :=
  alookup_map_self _ (keyOf home) g p (List.mem_filter.mpr ⟨hmem, hp⟩)
    (fun q hq he => hinj q (List.mem_filter.mp hq).1 p hmem he)

/-- Everything bound in `fs` is either a request path or a created plain
directory (the invariant that keeps restore's parent creation sane). -/
def reqsOK (reqs : List FPath) (fs : FS) : Prop :=
  ∀ q e, lookupRaw fs q = some e → q ∈ reqs ∨ e = dirE

theorem reqsOK_mkdirP (reqs : List FPath) (fs : FS) (t : FPath)
    (h : reqsOK reqs fs) : reqsOK reqs ((mkdirP fs t).1) := by
  intro q e he
  rcases mkdirP_lookup_or fs t q with h1 | h1
  · exact h q e (h1 ▸ he)
  · rw [h1] at he
    exact Or.inr (Option.some_injective _ he).symm

/-! ## C1 — the restore passes on a characterized archive -/

def stgOf (fs0 : FS) (home : FPath) (reqs : List FPath) : FS :=
  reqs.map (fun q => (keyOf home q, topEntry fs0 q))

def linksOf (fs0 : FS) (home : FPath) (reqs : List FPath) : List (FPath × LinkInfo) :=
  (reqs.filter (fun q => !(isFileReq fs0 q))).map
    (fun q => (keyOf home q, linkInfoOf fs0 q))

def affOf (home : FPath) (reqs : List FPath) : List (FPath × FPath) :=
  reqs.map (fun q => (keyOf home q, q))

def permsOf (fs0 : FS) (home : FPath) (reqs : List FPath) : List (FPath × Perm) :=
  (reqs.filter (fun q => isFileReq fs0 q)).map
    (fun q => (keyOf home q, statPerm fs0 q))

/-- Pass 1 on the characterized archive: every regular-file request is
written at its original absolute path with the staged content and mode, every
LinkRecord entry is left untouched, nothing outside the requests' ancestor
closure changes, and every binding remains a request path or a created
directory. -/
theorem pass1_fold_inv (fs0 : FS) (home : FPath) (reqs : List FPath)
    (conflict : Policy) (prompt : FPath → Bool)
    (hinj : ∀ q ∈ reqs, ∀ r ∈ reqs, keyOf home q = keyOf home r → q = r) :
    ∀ (rs : List FPath) (fs : FS) (tr : List WEvent),
      (∀ p ∈ rs, p ∈ reqs) → rs.Nodup →
      (∀ p ∈ rs, ∀ q ∈ rs, p ≠ q → ¬(p <+: q)) →
      (∀ p ∈ rs, lookupRaw fs p = none) →
      reqsOK reqs fs →
      (∀ p ∈ rs, isFileReq fs0 p = true →
        lookupRaw ((rs.map (fun p => (keyOf home p, p))).foldl
          (pass1Step (stgOf fs0 home reqs) (linksOf fs0 home reqs)
            false conflict prompt) (fs, tr)).1 p = some (topEntry fs0 p)) ∧
      (∀ p ∈ rs, isFileReq fs0 p = false →
        lookupRaw ((rs.map (fun p => (keyOf home p, p))).foldl
          (pass1Step (stgOf fs0 home reqs) (linksOf fs0 home reqs)
            false conflict prompt) (fs, tr)).1 p = none) ∧
      (∀ a : FPath, (∀ p ∈ rs, ¬(a <+: p)) →
        lookupRaw ((rs.map (fun p => (keyOf home p, p))).foldl
          (pass1Step (stgOf fs0 home reqs) (linksOf fs0 home reqs)
            false conflict prompt) (fs, tr)).1 a = lookupRaw fs a) ∧
      reqsOK reqs ((rs.map (fun p => (keyOf home p, p))).foldl
        (pass1Step (stgOf fs0 home reqs) (linksOf fs0 home reqs)
          false conflict prompt) (fs, tr)).1 := by
  intro rs
  induction rs with
  | nil =>
    intro fs tr _ _ _ _ hok
    exact ⟨fun p hp => absurd hp (List.not_mem_nil p),
      fun p hp => absurd hp (List.not_mem_nil p),
      fun a _ => rfl, hok⟩
  | cons p rest ih =>
    intro fs tr hsub hnd hsep hnone hok
    have hpmem : p ∈ reqs := hsub p (List.mem_cons_self p rest)
    have hpnone : lookupRaw fs p = none := hnone p (List.mem_cons_self p rest)
    have hstg : alookup (stgOf fs0 home reqs) (keyOf home p) =
        some (topEntry fs0 p) :=
      alookup_req_map home reqs _ p hpmem hinj
    rw [List.map_cons, List.foldl_cons]
    by_cases hf : isFileReq fs0 p = true
    · -- the staged entry is a regular file: the step writes it at p
      obtain ⟨e, hb⟩ : ∃ e, lookupRaw fs0 p = some e := by
        unfold isFileReq at hf
        cases h : lookupRaw fs0 p
        · rw [h] at hf
          exact absurd hf (by decide)
        · exact ⟨_, rfl⟩
      obtain ⟨n, em, eu, eg⟩ := e
      obtain ⟨c, hc⟩ : ∃ c, n = FNode.file c := by
        unfold isFileReq at hf
        rw [hb] at hf
        cases n with
        | file c => exact ⟨c, rfl⟩
        | dir => exact absurd hf (by simp [FSEntry.isFileE])
        | link t => exact absurd hf (by simp [FSEntry.isFileE])
      subst hc
      have htop : topEntry fs0 p = ⟨FNode.file c, em, 0, 0⟩ := by
        simp [topEntry, hb]
      have hstat : stat (stgOf fs0 home reqs) (keyOf home p) =
          some ⟨FNode.file c, em, 0, 0⟩ := by
        unfold stat
        rw [statPath_of_nonlink _ _ (⟨FNode.file c, em, 0, 0⟩ : FSEntry) (htop ▸ hstg) rfl]
        rfl
      have hlnone : alookup (linksOf fs0 home reqs) (keyOf home p) = none :=
        alookup_filter_map_none home reqs _ _ p hpmem hinj (by simp [hf])
      have hstep : pass1Step (stgOf fs0 home reqs) (linksOf fs0 home reqs)
          false conflict prompt (fs, tr) (keyOf home p, p) =
          (upsert ((mkdirP fs p.dropLast).1) p ⟨FNode.file c, em, 0, 0⟩,
           tr ++ (mkdirP fs p.dropLast).2 ++ [WEvent.wfile p]) := by
        have hex : pexists (stgOf fs0 home reqs) (keyOf home p) = true := by
          simp [pexists, hstat]
        have hisf : is_file (stgOf fs0 home reqs) (keyOf home p) = true := by
          simp [is_file, hstat, FSEntry.isFileE]
        have hhc : handle_conflict (stgOf fs0 home reqs) fs (keyOf home p) p
            false conflict (prompt p) = CResult.restore := by
          simp [handle_conflict, pexists_of_none fs p hpnone]
        have hwt : writeTargetPath ((mkdirP fs p.dropLast).1) 32 p = p := by
          apply writeTargetPath_of_none
          rw [mkdirP_frame fs p.dropLast p (not_self_pre_dropLast p)]
          exact hpnone
        have hcontent : contentAt (stgOf fs0 home reqs) (keyOf home p) = c := by
          simp [contentAt, hstat]
        have hmode : modeAt (stgOf fs0 home reqs) (keyOf home p) = em := by
          simp [modeAt, hstat]
        simp [pass1Step, hex, hlnone, hisf, hhc, copyFileTo, hwt, hcontent, hmode]
      rw [hstep]
      -- the state after this step
      have hlook₂ : ∀ a, lookupRaw (upsert ((mkdirP fs p.dropLast).1) p
          ⟨FNode.file c, em, 0, 0⟩) a =
          (if a = p then some ⟨FNode.file c, em, 0, 0⟩
           else lookupRaw ((mkdirP fs p.dropLast).1) a) := by
        intro a
        exact alookup_upsert _ _ _ a
      have hihargs₁ : ∀ q ∈ rest, lookupRaw (upsert ((mkdirP fs p.dropLast).1) p
          ⟨FNode.file c, em, 0, 0⟩) q = none := by
        intro q hq
        have hqp : q ≠ p := by
          intro he
          exact (List.nodup_cons.mp hnd).1 (he ▸ hq)
        rw [hlook₂ q, if_neg hqp, mkdirP_frame]
        · exact hnone q (List.mem_cons_of_mem p hq)
        · intro ⟨_, hpre⟩
          exact hsep q (List.mem_cons_of_mem p hq) p (List.mem_cons_self p rest)
            hqp (pre_of_pre_dropLast hpre)
      have hihok : reqsOK reqs (upsert ((mkdirP fs p.dropLast).1) p
          ⟨FNode.file c, em, 0, 0⟩) := by
        intro q e he
        rw [hlook₂ q] at he
        by_cases hqp : q = p
        · exact Or.inl (hqp ▸ hpmem)
        · rw [if_neg hqp] at he
          exact reqsOK_mkdirP reqs fs p.dropLast hok q e he
      obtain ⟨ih1, ih2, ih3, ih4⟩ := ih (upsert ((mkdirP fs p.dropLast).1) p
          ⟨FNode.file c, em, 0, 0⟩) (tr ++ (mkdirP fs p.dropLast).2 ++ [WEvent.wfile p])
        (fun q hq => hsub q (List.mem_cons_of_mem p hq))
        (List.nodup_cons.mp hnd).2
        (fun q hq r hr hne => hsep q (List.mem_cons_of_mem p hq)
          r (List.mem_cons_of_mem p hr) hne)
        hihargs₁ hihok
      refine ⟨?_, ?_, ?_, ih4⟩
      · intro q hq hqf
        rcases List.mem_cons.mp hq with he | hm
        · subst he
          rw [ih3 q (fun r hr => hsep q (List.mem_cons_self q rest) r
              (List.mem_cons_of_mem q hr) (fun heq => (List.nodup_cons.mp hnd).1
                (heq ▸ hr)) )]
          rw [hlook₂ q, if_pos rfl, htop]
        · exact ih1 q hm hqf
      · intro q hq hqf
        rcases List.mem_cons.mp hq with he | hm
        · subst he
          rw [hf] at hqf
          cases hqf
        · exact ih2 q hm hqf
      · intro a ha
        have hap : ¬(a <+: p) := ha p (List.mem_cons_self p rest)
        have hanep : a ≠ p := fun he => hap (he ▸ List.prefix_refl a)
        rw [ih3 a (fun r hr => ha r (List.mem_cons_of_mem p hr))]
        rw [hlook₂ a, if_neg hanep, mkdirP_frame]
        intro ⟨_, hpre⟩
        exact hap (pre_of_pre_dropLast hpre)
    · -- the entry has a LinkRecord: pass 1 skips it entirely
      have hlsome : alookup (linksOf fs0 home reqs) (keyOf home p) =
          some (linkInfoOf fs0 p) :=
        alookup_filter_map_self home reqs _ _ p hpmem hinj
          (by simp [Bool.eq_false_iff.mpr hf])
      have hstep : pass1Step (stgOf fs0 home reqs) (linksOf fs0 home reqs)
          false conflict prompt (fs, tr) (keyOf home p, p) = (fs, tr) := by
        simp only [pass1Step]
        by_cases hex : pexists (stgOf fs0 home reqs) (keyOf home p)
        · simp [hex, hlsome]
        · simp [hex]
      rw [hstep]
      obtain ⟨ih1, ih2, ih3, ih4⟩ := ih fs tr
        (fun q hq => hsub q (List.mem_cons_of_mem p hq))
        (List.nodup_cons.mp hnd).2
        (fun q hq r hr hne => hsep q (List.mem_cons_of_mem p hq)
          r (List.mem_cons_of_mem p hr) hne)
        (fun q hq => hnone q (List.mem_cons_of_mem p hq)) hok
      refine ⟨?_, ?_, ?_, ih4⟩
      · intro q hq hqf
        rcases List.mem_cons.mp hq with he | hm
        · subst he
          rw [hqf] at hf
          exact absurd rfl hf
        · exact ih1 q hm hqf
      · intro q hq hqf
        rcases List.mem_cons.mp hq with he | hm
        · subst he
          rw [ih3 q (fun r hr => hsep q (List.mem_cons_self q rest) r
              (List.mem_cons_of_mem q hr) (fun heq => (List.nodup_cons.mp hnd).1
                (heq ▸ hr)))]
          exact hnone q (List.mem_cons_self q rest)
        · exact ih2 q hm hqf
      · intro a ha
        exact ih3 a (fun r hr => ha r (List.mem_cons_of_mem p hr))

theorem dirE_nonlink : FSEntry.isLinkE dirE = false := rfl

/-- Pass 2 on the characterized archive: every directory-symlink request is
recreated as a symlink carrying the original raw target text, with parent
directories supplied by `mkdir(parents=True)`. -/
theorem pass2_fold_inv (fs0 : FS) (home : FPath) (reqs : List FPath)
    (conflict : Policy) (prompt : FPath → Bool)
    (hinj : ∀ q ∈ reqs, ∀ r ∈ reqs, keyOf home q = keyOf home r → q = r)
    (hsepg : ∀ p ∈ reqs, ∀ q ∈ reqs, p ≠ q → ¬(p <+: q)) :
    ∀ (ds : List FPath) (fs : FS) (tr : List WEvent),
      (∀ p ∈ ds, p ∈ reqs) → ds.Nodup →
      (∀ p ∈ ds, lookupRaw fs p = none) →
      reqsOK reqs fs →
      (∀ p ∈ ds,
        lookupRaw ((ds.map (fun p => (keyOf home p, linkInfoOf fs0 p))).foldl
          (pass2Step (stgOf fs0 home reqs) (affOf home reqs)
            false conflict prompt) (fs, tr)).1 p =
          some ⟨FNode.link (readlinkRaw fs0 p), 511, 0, 0⟩) ∧
      (∀ a : FPath, (∀ p ∈ ds, ¬(a <+: p)) →
        lookupRaw ((ds.map (fun p => (keyOf home p, linkInfoOf fs0 p))).foldl
          (pass2Step (stgOf fs0 home reqs) (affOf home reqs)
            false conflict prompt) (fs, tr)).1 a = lookupRaw fs a) ∧
      reqsOK reqs ((ds.map (fun p => (keyOf home p, linkInfoOf fs0 p))).foldl
        (pass2Step (stgOf fs0 home reqs) (affOf home reqs)
          false conflict prompt) (fs, tr)).1 := by
  intro ds
  induction ds with
  | nil =>
    intro fs tr _ _ _ hok
    exact ⟨fun p hp => absurd hp (List.not_mem_nil p), fun a _ => rfl, hok⟩
  | cons p rest ih =>
    intro fs tr hsub hnd hnone hok
    have hpmem : p ∈ reqs := hsub p (List.mem_cons_self p rest)
    have hpnone : lookupRaw fs p = none := hnone p (List.mem_cons_self p rest)
    have haff : alookup (affOf home reqs) (keyOf home p) = some p :=
      alookup_req_map home reqs _ p hpmem hinj
    have hpre_ok : ∀ q ∈ nePrefixes p.dropLast,
        lookupRaw fs q = none ∨ lookupRaw fs q = some dirE := by
      intro q hq
      cases hl : lookupRaw fs q with
      | none => exact Or.inl rfl
      | some e =>
        rcases hok q e hl with hqr | hde
        · exfalso
          obtain ⟨hqne, hqpre⟩ := (mem_nePrefixes q p.dropLast).mp hq
          have hqp : q ≠ p := by
            intro he
            exact not_self_pre_dropLast p ⟨he ▸ hqne, he ▸ hqpre⟩
          exact hsepg q hqr p hpmem hqp (pre_of_pre_dropLast hqpre)
        · exact Or.inr (by rw [hde])
    have hfs₁p : lookupRaw ((mkdirP fs p.dropLast).1) p = none := by
      rw [mkdirP_frame fs p.dropLast p (not_self_pre_dropLast p)]
      exact hpnone
    have hparent : parentOk ((mkdirP fs p.dropLast).1) p = true := by
      unfold parentOk
      by_cases hdl : p.dropLast = []
      · rw [hdl]
        rfl
      · have hmem : p.dropLast ∈ nePrefixes p.dropLast :=
          (mem_nePrefixes _ _).mpr ⟨hdl, List.prefix_refl _⟩
        have hpost := mkdirP_post fs p.dropLast hpre_ok p.dropLast hmem
        have hstatp : stat ((mkdirP fs p.dropLast).1) p.dropLast = some dirE := by
          unfold stat
          rw [statPath_of_nonlink _ _ dirE hpost dirE_nonlink]
          rfl
        rw [hstatp]
        simp [FSEntry.isDirE, dirE]
    have hstep : pass2Step (stgOf fs0 home reqs) (affOf home reqs)
        false conflict prompt (fs, tr) (keyOf home p, linkInfoOf fs0 p) =
        (upsert ((mkdirP fs p.dropLast).1) p
          ⟨FNode.link (readlinkRaw fs0 p), 511, 0, 0⟩,
         tr ++ (mkdirP fs p.dropLast).2 ++ [WEvent.mklink p]) := by
      have hnex : pexists fs p = false := pexists_of_none fs p hpnone
      simp [pass2Step, haff, hnex, createLinkAt, trySymlink, hfs₁p, hparent, linkInfoOf]
    rw [List.map_cons, List.foldl_cons, hstep]
    have hlook₂ : ∀ a, lookupRaw (upsert ((mkdirP fs p.dropLast).1) p
        ⟨FNode.link (readlinkRaw fs0 p), 511, 0, 0⟩) a =
        (if a = p then some ⟨FNode.link (readlinkRaw fs0 p), 511, 0, 0⟩
         else lookupRaw ((mkdirP fs p.dropLast).1) a) :=
      fun a => alookup_upsert _ _ _ a
    have hihnone : ∀ q ∈ rest, lookupRaw (upsert ((mkdirP fs p.dropLast).1) p
        ⟨FNode.link (readlinkRaw fs0 p), 511, 0, 0⟩) q = none := by
      intro q hq
      have hqp : q ≠ p := fun he => (List.nodup_cons.mp hnd).1 (he ▸ hq)
      rw [hlook₂ q, if_neg hqp, mkdirP_frame]
      · exact hnone q (List.mem_cons_of_mem p hq)
      · intro ⟨_, hpre⟩
        exact hsepg q (hsub q (List.mem_cons_of_mem p hq)) p hpmem hqp
          (pre_of_pre_dropLast hpre)
    have hihok : reqsOK reqs (upsert ((mkdirP fs p.dropLast).1) p
        ⟨FNode.link (readlinkRaw fs0 p), 511, 0, 0⟩) := by
      intro q e he
      rw [hlook₂ q] at he
      by_cases hqp : q = p
      · exact Or.inl (hqp ▸ hpmem)
      · rw [if_neg hqp] at he
        exact reqsOK_mkdirP reqs fs p.dropLast hok q e he
    obtain ⟨ih1, ih2, ih3⟩ := ih (upsert ((mkdirP fs p.dropLast).1) p
        ⟨FNode.link (readlinkRaw fs0 p), 511, 0, 0⟩)
      (tr ++ (mkdirP fs p.dropLast).2 ++ [WEvent.mklink p])
      (fun q hq => hsub q (List.mem_cons_of_mem p hq))
      (List.nodup_cons.mp hnd).2 hihnone hihok
    refine ⟨?_, ?_, ih3⟩
    · intro q hq
      rcases List.mem_cons.mp hq with he | hm
      · subst he
        rw [ih2 q (fun r hr => hsepg q hpmem r (hsub r (List.mem_cons_of_mem q hr))
            (fun heq => (List.nodup_cons.mp hnd).1 (heq ▸ hr)))]
        rw [hlook₂ q, if_pos rfl]
      · exact ih1 q hm
    · intro a ha
      have hap : ¬(a <+: p) := ha p (List.mem_cons_self p rest)
      have hanep : a ≠ p := fun he => hap (he ▸ List.prefix_refl a)
      rw [ih2 a (fun r hr => ha r (List.mem_cons_of_mem p hr))]
      rw [hlook₂ a, if_neg hanep, mkdirP_frame]
      intro ⟨_, hpre⟩
      exact hap (pre_of_pre_dropLast hpre)

/-- Pass 3 on the characterized archive: every regular-file destination gets
the recorded mode/uid/gid applied, and nothing else changes. -/
theorem pass3_fold_inv (fs0 : FS) (home : FPath) (reqs : List FPath) (cwd : FPath)
    (hinj : ∀ q ∈ reqs, ∀ r ∈ reqs, keyOf home q = keyOf home r → q = r) :
    ∀ (fls : List FPath) (fs : FS),
      (∀ p ∈ fls, p ∈ reqs) → fls.Nodup →
      (∀ p ∈ fls, isFileReq fs0 p = true) →
      (∀ p ∈ fls, lookupRaw fs p = some (topEntry fs0 p)) →
      (∀ p ∈ fls,
        lookupRaw ((fls.map (fun p => (keyOf home p, statPerm fs0 p))).foldl
          (pass3Step (affOf home reqs) cwd) fs) p =
          some ⟨(topEntry fs0 p).node, (statPerm fs0 p).mode,
            (statPerm fs0 p).uid, (statPerm fs0 p).gid⟩) ∧
      (∀ a : FPath, (∀ p ∈ fls, a ≠ p) →
        lookupRaw ((fls.map (fun p => (keyOf home p, statPerm fs0 p))).foldl
          (pass3Step (affOf home reqs) cwd) fs) a = lookupRaw fs a) := by
  intro fls
  induction fls with
  | nil =>
    intro fs _ _ _ _
    exact ⟨fun p hp => absurd hp (List.not_mem_nil p), fun a _ => rfl⟩
  | cons p rest ih =>
    intro fs hsub hnd hfile hbind
    have hpmem : p ∈ reqs := hsub p (List.mem_cons_self p rest)
    have haff : alookup (affOf home reqs) (keyOf home p) = some p :=
      alookup_req_map home reqs _ p hpmem hinj
    have hpb : lookupRaw fs p = some (topEntry fs0 p) :=
      hbind p (List.mem_cons_self p rest)
    have htopnl : FSEntry.isLinkE (topEntry fs0 p) = false := by
      have hf := hfile p (List.mem_cons_self p rest)
      unfold isFileReq at hf
      unfold topEntry
      cases h : lookupRaw fs0 p with
      | none =>
        rw [h] at hf
        exact absurd hf (by decide)
      | some e =>
        obtain ⟨n, em, eu, eg⟩ := e
        rw [h] at hf
        cases n with
        | file c => rfl
        | dir => exact absurd hf (by simp [FSEntry.isFileE])
        | link t => exact absurd hf (by simp [FSEntry.isFileE])
    have hsp : statPath fs 32 p = some (p, topEntry fs0 p) :=
      statPath_of_nonlink fs p _ hpb htopnl
    have hstep : pass3Step (affOf home reqs) cwd fs (keyOf home p, statPerm fs0 p) =
        upsert fs p ⟨(topEntry fs0 p).node, (statPerm fs0 p).mode,
          (statPerm fs0 p).uid, (statPerm fs0 p).gid⟩ := by
      have hex : pexists fs p = true := by
        simp [pexists, stat, hsp]
      simp [pass3Step, haff, hex, applyPerm, hsp]
    rw [List.map_cons, List.foldl_cons, hstep]
    have hlook₂ : ∀ a, lookupRaw (upsert fs p ⟨(topEntry fs0 p).node,
        (statPerm fs0 p).mode, (statPerm fs0 p).uid, (statPerm fs0 p).gid⟩) a =
        (if a = p then some ⟨(topEntry fs0 p).node, (statPerm fs0 p).mode,
          (statPerm fs0 p).uid, (statPerm fs0 p).gid⟩ else lookupRaw fs a) :=
      fun a => alookup_upsert _ _ _ a
    obtain ⟨ih1, ih2⟩ := ih (upsert fs p ⟨(topEntry fs0 p).node,
        (statPerm fs0 p).mode, (statPerm fs0 p).uid, (statPerm fs0 p).gid⟩)
      (fun q hq => hsub q (List.mem_cons_of_mem p hq))
      (List.nodup_cons.mp hnd).2
      (fun q hq => hfile q (List.mem_cons_of_mem p hq))
      (by
        intro q hq
        have hqp : q ≠ p := fun he => (List.nodup_cons.mp hnd).1 (he ▸ hq)
        rw [hlook₂ q, if_neg hqp]
        exact hbind q (List.mem_cons_of_mem p hq))
    refine ⟨?_, ?_⟩
    · intro q hq
      rcases List.mem_cons.mp hq with he | hm
      · subst he
        rw [ih2 q (fun r hr he => (List.nodup_cons.mp hnd).1 (he ▸ hr))]
        rw [hlook₂ q, if_pos rfl]
      · exact ih1 q hm
    · intro a ha
      have hanep : a ≠ p := ha p (List.mem_cons_self p rest)
      rw [ih2 a (fun r hr => ha r (List.mem_cons_of_mem p hr))]
      rw [hlook₂ a, if_neg hanep]

/-- Unfolding of `restore`'s let-chain. -/
theorem restore_fst (A : Archive) (fs : FS) (dry : Bool) (conflict : Policy)
    (no_perm : Bool) (prompt : FPath → Bool) (cwd : FPath) :
    (restore A fs dry conflict no_perm prompt cwd).1 =
      (if !no_perm && !A.permissions.isEmpty then
        pass3 A cwd (pass2 A (pass1 A fs dry conflict prompt).1 dry conflict prompt).1
      else (pass2 A (pass1 A fs dry conflict prompt).1 dry conflict prompt).1) := rfl

/-- `restore` on an explicit archive, as the three ordered folds (the
`permissions.isEmpty` guard only ever skips an empty fold). -/
theorem restore_components (stg : FS) (aff : List (FPath × FPath))
    (perms : List (FPath × Perm)) (links : List (FPath × LinkInfo))
    (fs : FS) (conflict : Policy) (prompt : FPath → Bool) (cwd : FPath) :
    (restore ⟨stg, aff, perms, links⟩ fs false conflict false prompt cwd).1 =
      perms.foldl (pass3Step aff cwd)
        ((links.foldl (pass2Step stg aff false conflict prompt)
          ((aff.foldl (pass1Step stg links false conflict prompt) (fs, [])).1, [])).1) := by
  rw [restore_fst]
  dsimp only
  by_cases hpe : perms.isEmpty
  · have hnil : perms = [] := by
      cases perms with
      | nil => rfl
      | cons a l => simp at hpe
    subst hnil
    simp [pass1, pass2]
  · rw [Bool.eq_false_iff.mpr hpe]
    simp [pass1, pass2, pass3]

/-- C1 amended: round-trip identity for requests that are plain regular files
or directory-target symlinks — pairwise distinct, none an ancestor of
another, each mapped by the path mapper to a distinct archive key.  Backing
them up into a fresh archive and restoring onto an empty filesystem (any
conflict policy; permission pass enabled) reproduces, at every requested
path, the original file entry exactly (content, mode, uid, gid) and the
original raw symlink target string.  Requests through symlinks whose target
is a regular file are excluded (they are restored as plain files — see the
counterexample), as are directories (their PermissionRecords restore to a
cwd-relative fallback path and empty subdirectories are not recreated — also
in the counterexample). -/
theorem backup_restore_roundtrip
    (fs0 : FS) (home : FPath) (reqs : List FPath)
    (conflict : Policy) (prompt : FPath → Bool) (cwd : FPath)
    (hkind : ∀ p ∈ reqs, isFileReq fs0 p = true ∨
      (is_symlink fs0 p = true ∧ is_dir fs0 p = true))
    (hmap : ∀ p ∈ reqs, (get_archive_path p home).isSome = true)
    (hinj : ∀ p ∈ reqs, ∀ q ∈ reqs, keyOf home p = keyOf home q → p = q)
    (hnd : reqs.Nodup)
    (hsep : ∀ p ∈ reqs, ∀ q ∈ reqs, p ≠ q → ¬(p <+: q)) :
    ∀ p ∈ reqs,
      (∀ c m u g, lookupRaw fs0 p = some ⟨FNode.file c, m, u, g⟩ →
        lookupRaw (restore (backup fs0 home false (reqs.map (fun q => (true, q))))
          [] false conflict false prompt cwd).1 p =
          some ⟨FNode.file c, m, u, g⟩) ∧
      (∀ t m u g, lookupRaw fs0 p = some ⟨FNode.link t, m, u, g⟩ →
        ∃ m' u' g',
          lookupRaw (restore (backup fs0 home false (reqs.map (fun q => (true, q))))
            [] false conflict false prompt cwd).1 p =
            some ⟨FNode.link t, m', u', g'⟩) := by
  have hA : backup fs0 home false (reqs.map (fun q => (true, q))) =
      { staging := stgOf fs0 home reqs
        affiliation := affOf home reqs
        permissions := permsOf fs0 home reqs
        links := linksOf fs0 home reqs } := by
    unfold backup
    rw [backup_char fs0 home reqs Archive.empty hkind hmap hinj hnd
      (fun p _ => ⟨rfl, rfl, rfl, rfl⟩)]
    simp [Archive.empty, stgOf, affOf, permsOf, linksOf]
  rw [hA]
  -- pass 1 over the affiliation map
  obtain ⟨hP1a, hP1b, hP1f, hP1ok⟩ := pass1_fold_inv fs0 home reqs conflict prompt
    hinj reqs [] [] (fun p hp => hp) hnd hsep (fun p _ => rfl)
    (fun q e he => by cases he)
  -- pass 2 over the link map
  have hdl_sub : ∀ p ∈ reqs.filter (fun q => !(isFileReq fs0 q)), p ∈ reqs :=
    fun p hp => (List.mem_filter.mp hp).1
  have hdl_nd : (reqs.filter (fun q => !(isFileReq fs0 q))).Nodup := hnd.filter _
  set fs1 := ((reqs.map (fun p => (keyOf home p, p))).foldl
    (pass1Step (stgOf fs0 home reqs) (linksOf fs0 home reqs)
      false conflict prompt) (([] : FS), ([] : List WEvent))).1 with hfs1def
  have hdl_none : ∀ p ∈ reqs.filter (fun q => !(isFileReq fs0 q)),
      lookupRaw fs1 p = none := by
    intro p hp
    have hm := List.mem_filter.mp hp
    have hnf : isFileReq fs0 p = false := by
      have := hm.2
      simp at this
      exact this
    exact hP1b p hm.1 hnf
  obtain ⟨hP2a, hP2f, hP2ok⟩ := pass2_fold_inv fs0 home reqs conflict prompt
    hinj hsep (reqs.filter (fun q => !(isFileReq fs0 q))) fs1 []
    hdl_sub hdl_nd hdl_none hP1ok
  set fs2 := (((reqs.filter (fun q => !(isFileReq fs0 q))).map
    (fun p => (keyOf home p, linkInfoOf fs0 p))).foldl
      (pass2Step (stgOf fs0 home reqs) (affOf home reqs)
        false conflict prompt) (fs1, ([] : List WEvent))).1 with hfs2def
  -- pass 3 over the permission map
  have hfl_sub : ∀ p ∈ reqs.filter (fun q => isFileReq fs0 q), p ∈ reqs :=
    fun p hp => (List.mem_filter.mp hp).1
  have hfl_nd : (reqs.filter (fun q => isFileReq fs0 q)).Nodup := hnd.filter _
  have hfl_file : ∀ p ∈ reqs.filter (fun q => isFileReq fs0 q),
      isFileReq fs0 p = true := fun p hp => (List.mem_filter.mp hp).2
  have hkind_clash : ∀ p ∈ reqs, ∀ q ∈ reqs, isFileReq fs0 p = true →
      isFileReq fs0 q = false → p ≠ q := by
    intro p _ q _ hp hq he
    rw [he, hq] at hp
    cases hp
  have hfl_bind : ∀ p ∈ reqs.filter (fun q => isFileReq fs0 q),
      lookupRaw fs2 p = some (topEntry fs0 p) := by
    intro p hp
    have hm := List.mem_filter.mp hp
    rw [hfs2def]
    rw [hP2f p ?frameP]
    case frameP =>
      intro r hr
      have hrm := List.mem_filter.mp hr
      have hrnf : isFileReq fs0 r = false := by
        have := hrm.2
        simp at this
        exact this
      exact hsep p hm.1 r hrm.1 (hkind_clash p hm.1 r hrm.1 hm.2 hrnf)
    exact hP1a p hm.1 hm.2
  obtain ⟨hP3a, hP3f⟩ := pass3_fold_inv fs0 home reqs cwd hinj
    (reqs.filter (fun q => isFileReq fs0 q)) fs2 hfl_sub hfl_nd hfl_file hfl_bind
  -- the restored file system is the pass-3 fold over the permission map
  have hres : (restore
      { staging := stgOf fs0 home reqs
        affiliation := affOf home reqs
        permissions := permsOf fs0 home reqs
        links := linksOf fs0 home reqs } [] false conflict false prompt cwd).1 =
      ((reqs.filter (fun q => isFileReq fs0 q)).map
        (fun p => (keyOf home p, statPerm fs0 p))).foldl
          (pass3Step (affOf home reqs) cwd) fs2 := by
    rw [restore_components]
    rfl
  rw [hres]
  intro p hpmem
  constructor
  · intro c m u g hb
    have hf : isFileReq fs0 p = true := by
      simp [isFileReq, hb, FSEntry.isFileE]
    have hpfl : p ∈ reqs.filter (fun q => isFileReq fs0 q) :=
      List.mem_filter.mpr ⟨hpmem, hf⟩
    have htop : topEntry fs0 p = ⟨FNode.file c, m, 0, 0⟩ := by
      simp [topEntry, hb]
    have hperm : statPerm fs0 p = ⟨m, u, g⟩ := by
      unfold statPerm stat
      rw [statPath_of_nonlink fs0 p (⟨FNode.file c, m, u, g⟩ : FSEntry) hb rfl]
      rfl
    have := hP3a p hpfl
    rw [htop, hperm] at this
    exact this
  · intro t m u g hb
    have hnf : isFileReq fs0 p = false := by
      simp [isFileReq, hb, FSEntry.isFileE]
    have hpdl : p ∈ reqs.filter (fun q => !(isFileReq fs0 q)) :=
      List.mem_filter.mpr ⟨hpmem, by simp [hnf]⟩
    have hrl : readlinkRaw fs0 p = t := by
      simp [readlinkRaw, hb]
    refine ⟨511, 0, 0, ?_⟩
    rw [hP3f p ?frameQ]
    case frameQ =>
      intro r hr
      have hrm := List.mem_filter.mp hr
      exact (hkind_clash r hrm.1 p hpmem hrm.2 hnf).symm
    have := hP2a p hpdl
    rw [hrl] at this
    rw [hfs2def] at this
    exact this

/-- A file system holding a directory `/d` whose only child is the empty
subdirectory `/d/s` with distinctive mode/ownership. -/
def fsDirTree : FS :=
  [(["d"], ⟨FNode.dir, 448, 0, 0⟩), (["d", "s"], ⟨FNode.dir, 448, 5, 6⟩)]

def archDirTree : Archive := backup fsDirTree ["root"] false [(true, ["d"])]

/-- C1 counterexample: the round trip is not an identity.  (i) The requested
top-level symlink `/a -> /b` (target a regular file) comes back as a *plain
file* with the target's content and permissions — its symlink target string
is not reproduced.  (ii) Backing up the directory `/d` containing only the
empty subdirectory `/d/s` produces an archive with an empty affiliation map,
and restoring it onto an empty filesystem reproduces nothing at all — the
directory, and its recorded mode/uid/gid, are lost (the permission record's
destination falls back to a cwd-relative path that does not exist). -/
theorem backup_restore_roundtrip_cex :
    lookupRaw fsLinkToFile ["a"] = some ⟨FNode.link "/b", 511, 0, 0⟩ ∧
    lookupRaw (restore archLinkToFile [] false Policy.skip false
      (fun _ => false) []).1 ["a"] = some ⟨FNode.file [104, 105], 420, 1, 2⟩ ∧
    lookupRaw fsDirTree ["d", "s"] = some ⟨FNode.dir, 448, 5, 6⟩ ∧
    archDirTree.affiliation = [] ∧
    (alookup archDirTree.permissions ["files", "d", "s"]).isSome = true ∧
    (restore archDirTree [] false Policy.skip false (fun _ => false) ["cwd"]).1 = [] :=
  ⟨rfl, rfl, rfl, rfl, rfl, rfl⟩

/-- A file system with a plain file `/etc/conf` and a directory symlink
`/lnk -> /srv`, for the C1 witness. -/
def rtFS : FS :=
  [ (["etc"], ⟨FNode.dir, 493, 0, 0⟩),
    (["etc", "conf"], ⟨FNode.file [1, 2], 420, 1, 2⟩),
    (["srv"], ⟨FNode.dir, 493, 0, 0⟩),
    (["lnk"], ⟨FNode.link "/srv", 511, 0, 0⟩) ]

def rtReqs : List FPath := [["etc", "conf"], ["lnk"]]

/-- Witness for C1 (amended): backing up `/etc/conf` and the directory
symlink `/lnk`, then restoring onto an empty file system, reproduces the
file entry exactly. -/
theorem backup_restore_roundtrip_witness :
    (∀ p ∈ rtReqs, isFileReq rtFS p = true ∨
      (is_symlink rtFS p = true ∧ is_dir rtFS p = true)) ∧
    (∀ p ∈ rtReqs, (get_archive_path p ["root"]).isSome = true) ∧
    (∀ p ∈ rtReqs, ∀ q ∈ rtReqs, keyOf ["root"] p = keyOf ["root"] q → p = q) ∧
    rtReqs.Nodup ∧
    (∀ p ∈ rtReqs, ∀ q ∈ rtReqs, p ≠ q → ¬(p <+: q)) ∧
    lookupRaw (restore (backup rtFS ["root"] false (rtReqs.map (fun q => (true, q))))
      [] false Policy.skip false (fun _ => false) []).1 ["etc", "conf"] =
      some ⟨FNode.file [1, 2], 420, 1, 2⟩ :=
  ⟨by decide, by decide, by decide, by decide, by decide,
   (backup_restore_roundtrip rtFS ["root"] rtReqs Policy.skip (fun _ => false) []
     (by decide) (by decide) (by decide) (by decide) (by decide)
     ["etc", "conf"] (by decide)).1 [1, 2] 420 1 2 (by decide)⟩
